import Mathlib

/-!
# Stack VM (`stack_vm.c`): shallow embedding and verified properties

The interpreter of `stack_vm.c` is embedded as pure functions on an explicit
machine state.

* A byte of the bytecode buffer (`uint8_t`) is a `Fin 256`.
* The C type `double` is kept abstract: the interpreter is parametrised by a
  record `DoubleOps α` holding exactly the operations the source applies to
  doubles (`+ - * /`, `pow`, `sqrt`, `log`, the conversion of a byte and the
  test `== 0`).  Every theorem about control flow therefore holds for any
  arithmetic, IEEE-754 included.
* The global `vm` is a value of `VM α`.  The pointers `vm.ip` and
  `vm.stack_top` are stored as offsets from `bytecode` and from `vm.stack`.
* C leaves some operations undefined (a read past the bytecode buffer, a
  write past `stack[STACK_MAX - 1]`, moving `stack_top` below `stack`).  The
  embedding follows a run up to the first such operation and reports it as
  `Outcome.undefined`.  What the compiled program does from there on is not
  determined by the source (it may crash, or carry on and even return), and
  no statement below is about it.
-/

namespace StackVM

/-- One byte of the bytecode buffer (`uint8_t`). -/
abbrev uint8_t := Fin 256

/-- The stack capacity, `#define STACK_MAX 256`. -/
def STACK_MAX : Nat := 256

/-- The operations on `double` used by the interpreter. -/
structure DoubleOps (α : Type) where
  /-- conversion `uint8_t → double` in `double arg = *vm.ip++` -/
  ofByte : uint8_t → α
  /-- the value of a zero-initialised `double` -/
  zero : α
  /-- addition, `arg_left + arg_right` -/
  add : α → α → α
  /-- subtraction, `arg_left - arg_right` -/
  sub : α → α → α
  /-- division, `arg_left / arg_right` -/
  div : α → α → α
  /-- multiplication, `arg_left * arg_right` -/
  mul : α → α → α
  /-- power, `pow(arg_left, arg_right)` -/
  pow : α → α → α
  /-- square root, `sqrt(arg)` -/
  sqrt : α → α
  /-- natural logarithm, `log(arg)` -/
  log : α → α
  /-- the test `arg_right == 0` -/
  eqZero : α → Bool

/-- The global `vm`: instruction pointer, fixed-size stack, stack pointer and
result register.  `ip = none` is the `NULL` pointer, `ip = some i` is
`bytecode + i`; `stack_top = n` is `vm.stack + n`; `stack i` is the cell
`vm.stack[i]` (only cells `i < STACK_MAX` are ever accessed). -/
structure VM (α : Type) where
  ip : Option Nat
  stack : Nat → α
  stack_top : Nat
  result : α

/-- The return values of `vm_interpret`, `typedef enum interpret_result`. -/
inductive interpret_result where
  | SUCCESS
  | ERROR_DIVISION_BY_ZERO
  | ERROR_UNKNOWN_OPCODE
  deriving DecidableEq, Repr

/-- The ways in which an execution leaves the behaviour defined by C. -/
inductive Undefined where
  /-- the read `*vm.ip` with `vm.ip == NULL` -/
  | null_ip
  /-- the read `*vm.ip` with `vm.ip` at or past the end of the bytecode buffer -/
  | read_past_bytecode
  /-- the store `*vm.stack_top = value` with `vm.stack_top == vm.stack + STACK_MAX` -/
  | write_past_stack
  /-- the decrement `vm.stack_top--` with `vm.stack_top == vm.stack` -/
  | pop_below_stack
  deriving DecidableEq, Repr

/-- What one iteration of the `for (;;)` loop does next: `break` out of the
`switch` into the next iteration, or `return`. -/
inductive Flow (α : Type) where
  | next (vm : VM α)
  | ret (r : interpret_result) (vm : VM α)

/-- The outcome of a call of `vm_interpret`. -/
inductive Outcome (α : Type) where
  /-- the call returned `r` and left the global `vm` as given -/
  | returned (r : interpret_result) (vm : VM α)
  /-- the execution reached an operation whose behaviour C does not define; the
  run is followed no further -/
  | undefined (u : Undefined)
  /-- the iteration budget of the embedding ran out (never the case for
  `vm_interpret`, see `vm_interpret_loop_fuel`) -/
  | out_of_fuel

/-- The return value of a call, if it returned within defined behaviour. -/
def Outcome.status {α : Type} : Outcome α → Option interpret_result
  | .returned r _ => some r
  | _ => none

/-- The result register after a call, if it returned within defined
behaviour. -/
def Outcome.result {α : Type} : Outcome α → Option α
  | .returned _ vm => some vm.result
  | _ => none

/-- Storing `value` in cell `i` of the stack array. -/
def write {α : Type} (stack : Nat → α) (i : Nat) (value : α) : Nat → α :=
  fun j => if j = i then value else stack j

/-- The function `vm_reset`: the whole struct is zero-initialised (`ip = NULL`,
every stack cell and the result register are `0.0`), then `stack_top = stack`. -/
def vm_reset {α : Type} (ops : DoubleOps α) (_vm : VM α) : VM α :=
  { ip := none, stack := fun _ => ops.zero, stack_top := 0, result := ops.zero }

/-- The function `vm_stack_push`: `*vm.stack_top = value; vm.stack_top++;`.
The store is defined only while `stack_top` points into the array. -/
def vm_stack_push {α : Type} (vm : VM α) (value : α) : Except Undefined (VM α) :=
  if vm.stack_top < STACK_MAX then
    .ok { vm with stack := write vm.stack vm.stack_top value, stack_top := vm.stack_top + 1 }
  else
    .error .write_past_stack

/-- The function `vm_stack_pop`: `vm.stack_top--; return *vm.stack_top;`.
The decrement is defined only while `stack_top` is above the first cell. -/
def vm_stack_pop {α : Type} (vm : VM α) : Except Undefined (α × VM α) :=
  if 0 < vm.stack_top then
    .ok (vm.stack (vm.stack_top - 1), { vm with stack_top := vm.stack_top - 1 })
  else
    .error .pop_below_stack

/-- The fetch `*vm.ip++`. -/
def fetch {α : Type} (bytecode : List uint8_t) (vm : VM α) : Except Undefined (uint8_t × VM α) :=
  match vm.ip with
  | none => .error .null_ip
  | some i =>
    match bytecode[i]? with
    | none => .error .read_past_bytecode
    | some b => .ok (b, { vm with ip := some (i + 1) })

/-- One iteration of the `for (;;)` loop of `vm_interpret`: fetch an opcode and
execute the matching `case` of the `switch`. -/
def step {α : Type} (ops : DoubleOps α) (bytecode : List uint8_t) (vm : VM α) :
    Except Undefined (Flow α) := do
  let (instruction, vm) ← fetch bytecode vm
  match instruction.val with
  | 0 => -- OP_PUSHI
    let (arg, vm) ← fetch bytecode vm
    let vm ← vm_stack_push vm (ops.ofByte arg)
    pure (.next vm)
  | 1 => -- OP_ADD
    let (arg_right, vm) ← vm_stack_pop vm
    let (arg_left, vm) ← vm_stack_pop vm
    let res := ops.add arg_left arg_right
    let vm ← vm_stack_push vm res
    pure (.next vm)
  | 2 => -- OP_SUB
    let (arg_right, vm) ← vm_stack_pop vm
    let (arg_left, vm) ← vm_stack_pop vm
    let res := ops.sub arg_left arg_right
    let vm ← vm_stack_push vm res
    pure (.next vm)
  | 3 => -- OP_DIV
    let (arg_right, vm) ← vm_stack_pop vm
    if ops.eqZero arg_right then
      pure (.ret .ERROR_DIVISION_BY_ZERO vm)
    else
      let (arg_left, vm) ← vm_stack_pop vm
      let res := ops.div arg_left arg_right
      let vm ← vm_stack_push vm res
      pure (.next vm)
  | 4 => -- OP_MUL
    let (arg_right, vm) ← vm_stack_pop vm
    let (arg_left, vm) ← vm_stack_pop vm
    let res := ops.mul arg_left arg_right
    let vm ← vm_stack_push vm res
    pure (.next vm)
  | 5 => -- OP_POW
    let (arg_right, vm) ← vm_stack_pop vm
    let (arg_left, vm) ← vm_stack_pop vm
    let res := ops.pow arg_left arg_right
    let vm ← vm_stack_push vm res
    pure (.next vm)
  | 6 => -- OP_SQRT
    let (arg, vm) ← vm_stack_pop vm
    let res := ops.sqrt arg
    let vm ← vm_stack_push vm res
    pure (.next vm)
  | 7 => -- OP_LN
    let (arg, vm) ← vm_stack_pop vm
    let res := ops.log arg
    let vm ← vm_stack_push vm res
    pure (.next vm)
  | 8 => -- OP_POP_RES
    let (res, vm) ← vm_stack_pop vm
    pure (.next { vm with result := res })
  | 9 => -- OP_DONE
    pure (.ret .SUCCESS vm)
  | _ => -- default
    pure (.ret .ERROR_UNKNOWN_OPCODE vm)

/-- The `for (;;)` loop of `vm_interpret`, with a budget of iterations. -/
def vm_interpret_loop {α : Type} (ops : DoubleOps α) (bytecode : List uint8_t) :
    Nat → VM α → Outcome α
  | 0, _ => .out_of_fuel
  | fuel + 1, vm =>
    match step ops bytecode vm with
    | .error u => .undefined u
    | .ok (.ret r vm) => .returned r vm
    | .ok (.next vm) => vm_interpret_loop ops bytecode fuel vm

/-- The function `vm_interpret`: reset the global `vm` (whose previous contents
are the argument `vm`), point `ip` at the bytecode and run the loop.  Every iteration
moves `ip` forward and the run is followed no further than a fetch at the end
of the buffer, so `bytecode.length + 1` iterations always suffice.  (The `return SUCCESS` after
the loop is unreachable.) -/
def vm_interpret {α : Type} (ops : DoubleOps α) (vm : VM α) (bytecode : List uint8_t) :
    Outcome α :=
  let vm := vm_reset ops vm
  let vm := { vm with ip := some 0 }
  vm_interpret_loop ops bytecode (bytecode.length + 1) vm

/-- Exact arithmetic on the rationals, used to evaluate concrete programs.
The four field operations and powers with a natural-number exponent are
exact, so this instance agrees with `double` on every program whose
intermediate values are integers of small magnitude.  A square root is exact
on squares of rationals.  An inexact root, a power with another exponent and a
logarithm have no exact value in `ℚ` in general; this instance gives `0` for
them (which is exact for `log 1` only), and no theorem below evaluates one. -/
def exactOps : DoubleOps ℚ where
  ofByte b := (b.val : ℚ)
  zero := 0
  add a b := a + b
  sub a b := a - b
  div a b := a / b
  mul a b := a * b
  pow a b := if b.den = 1 ∧ 0 ≤ b.num then a ^ b.num.toNat else 0
  sqrt a :=
    let r : ℚ := (Nat.sqrt a.num.toNat : ℚ) / (Nat.sqrt a.den : ℚ)
    if r * r = a then r else 0
  log _ := 0
  eqZero a := decide (a = 0)

/-- The machine state with which the loop of `vm_interpret` is entered: the
state after `vm_reset()` and `vm.ip = bytecode`. -/
def entry {α : Type} (ops : DoubleOps α) (vm : VM α) : VM α :=
  { vm_reset ops vm with ip := some 0 }

/-- The machine state after `k` complete iterations of the loop (each one
ending in `break`), if the run gets that far. -/
def iterations {α : Type} (ops : DoubleOps α) (bytecode : List uint8_t) :
    Nat → VM α → Option (VM α)
  | 0, vm => some vm
  | k + 1, vm =>
    match step ops bytecode vm with
    | .ok (.next vm) => iterations ops bytecode k vm
    | _ => none

/-- The cells `stack[n-1], …, stack[0]`, topmost first. -/
def cells {α : Type} (stack : Nat → α) : Nat → List α
  | 0 => []
  | n + 1 => stack n :: cells stack n

/-- The values on the operand stack, topmost first: the cells below
`stack_top`. -/
def live {α : Type} (vm : VM α) : List α :=
  cells vm.stack vm.stack_top

/-- Arithmetic expressions over byte literals. -/
inductive Expr where
  | lit (x : uint8_t)
  | add (l r : Expr)
  | sub (l r : Expr)
  | div (l r : Expr)
  | mul (l r : Expr)
  | pow (l r : Expr)
  | sqrt (a : Expr)
  | ln (a : Expr)

/-- The postfix encoding of an expression. -/
def Expr.code : Expr → List uint8_t
  | .lit x => [0, x]
  | .add l r => l.code ++ r.code ++ [1]
  | .sub l r => l.code ++ r.code ++ [2]
  | .div l r => l.code ++ r.code ++ [3]
  | .mul l r => l.code ++ r.code ++ [4]
  | .pow l r => l.code ++ r.code ++ [5]
  | .sqrt a => a.code ++ [6]
  | .ln a => a.code ++ [7]

/-- The value of an expression. -/
def Expr.value {α : Type} (ops : DoubleOps α) : Expr → α
  | .lit x => ops.ofByte x
  | .add l r => ops.add (l.value ops) (r.value ops)
  | .sub l r => ops.sub (l.value ops) (r.value ops)
  | .div l r => ops.div (l.value ops) (r.value ops)
  | .mul l r => ops.mul (l.value ops) (r.value ops)
  | .pow l r => ops.pow (l.value ops) (r.value ops)
  | .sqrt a => ops.sqrt (a.value ops)
  | .ln a => ops.log (a.value ops)

/-- No division of the expression has a divisor whose value compares equal to
zero. -/
def Expr.DivSafe {α : Type} (ops : DoubleOps α) : Expr → Prop
  | .lit _ => True
  | .add l r => l.DivSafe ops ∧ r.DivSafe ops
  | .sub l r => l.DivSafe ops ∧ r.DivSafe ops
  | .div l r => l.DivSafe ops ∧ r.DivSafe ops ∧ ops.eqZero (r.value ops) = false
  | .mul l r => l.DivSafe ops ∧ r.DivSafe ops
  | .pow l r => l.DivSafe ops ∧ r.DivSafe ops
  | .sqrt a => a.DivSafe ops
  | .ln a => a.DivSafe ops

/-- The number of stack slots the postfix evaluation of an expression needs:
the right operand of a binary node is evaluated on top of the value of the
left one. -/
def Expr.slots : Expr → Nat
  | .lit _ => 1
  | .add l r => max l.slots (r.slots + 1)
  | .sub l r => max l.slots (r.slots + 1)
  | .div l r => max l.slots (r.slots + 1)
  | .mul l r => max l.slots (r.slots + 1)
  | .pow l r => max l.slots (r.slots + 1)
  | .sqrt a => a.slots
  | .ln a => a.slots

/-- Reference semantics of one instruction other than push-immediate and halt,
following the specification's words: a binary operation consumes two stack
values (the right operand on top) and produces one, divide being refused when
the right operand is zero; a unary operation consumes one value and produces
one; pop-to-result consumes one value, which becomes the last value popped.
The stack is a list, topmost first.  The answer is `none` when the operands
are missing, the divisor is zero or the opcode is not defined. -/
def reference_op {α : Type} (ops : DoubleOps α) (opcode : Nat) (stack : List α)
    (last : Option α) : Option (List α × Option α) :=
  match opcode, stack with
  | 1, right :: left :: stack => some (ops.add left right :: stack, last)
  | 2, right :: left :: stack => some (ops.sub left right :: stack, last)
  | 3, right :: left :: stack =>
    if ops.eqZero right then none else some (ops.div left right :: stack, last)
  | 4, right :: left :: stack => some (ops.mul left right :: stack, last)
  | 5, right :: left :: stack => some (ops.pow left right :: stack, last)
  | 6, arg :: stack => some (ops.sqrt arg :: stack, last)
  | 7, arg :: stack => some (ops.log arg :: stack, last)
  | 8, res :: stack => some (stack, some res)
  | _, _ => none

/-- Reference semantics of a valid program, following the specification's
words.  The program is read from its first byte, with the operand stack given
as a list (topmost first) and `last` the value popped by the last
pop-to-result executed so far.  The answer is `some last` when halt is reached
inside the buffer, every instruction on the way having found the operands it
pops, no divisor being zero and the stack never holding more than `STACK_MAX`
values; it is `none` for any other program. -/
def reference {α : Type} (ops : DoubleOps α) :
    List uint8_t → List α → Option α → Option (Option α)
  | [], _, _ => none
  | [op], _, last => if op.val = 9 then some last else none
  | op :: x :: rest, stack, last =>
    if op.val = 9 then some last
    else if op.val = 0 then
      if stack.length < STACK_MAX then reference ops rest (ops.ofByte x :: stack) last
      else none
    else
      match reference_op ops op.val stack last with
      | some (stack, last) => reference ops (x :: rest) stack last
      | none => none

/-- The conversion of a byte to `double` is exact, so the converted value
compares equal to zero exactly when the byte is zero. -/
def DoubleOps.ExactZero {α : Type} (ops : DoubleOps α) : Prop :=
  ∀ x : uint8_t, ops.eqZero (ops.ofByte x) = decide (x = 0)

/-- The program that pushes the given bytes, one push-immediate each. -/
def pushes : List uint8_t → List uint8_t
  | [] => []
  | x :: xs => 0 :: x :: pushes xs

/-- The square root is exact on the squares of the integers 0 to 15 (as the
correctly rounded `sqrt` of IEEE-754 is). -/
def DoubleOps.ExactSqrt {α : Type} (ops : DoubleOps α) : Prop :=
  ∀ k : uint8_t, k.val ≤ 15 → ops.sqrt (ops.ofByte (k * k)) = ops.ofByte k

/-- The position of the opcode that follows the instruction whose opcode is at
position `i`, read off the buffer's bytes alone: two bytes further when the
byte at `i` is 0 (push-immediate), one byte further for any other byte. -/
def next_opcode_position (bytecode : List uint8_t) (i : Nat) : Nat :=
  if bytecode[i]? = some 0 then i + 2 else i + 1

/-- The position of the opcode of the `k`-th instruction of the buffer
(counting from 0), read off the buffer's bytes alone. -/
def opcode_position (bytecode : List uint8_t) : Nat → Nat
  | 0 => 0
  | k + 1 => next_opcode_position bytecode (opcode_position bytecode k)

/-- The opcode that the iteration starting in state `vm` fetches, when `ip`
points into the buffer. -/
def opcode_at {α : Type} (bytecode : List uint8_t) (vm : VM α) : Option uint8_t :=
  vm.ip.bind (fun i => bytecode[i]?)

/-- The value popped by the last pop-to-result among the first `k` iterations
of the run that starts in `vm0`, following the claim's words: the `k`-th
iteration starts in the state reached by the first `k - 1`; when the opcode it
fetches is pop-to-result (8), the value popped is the topmost value of the
stack in that state; otherwise the last value popped is the one of the first
`k - 1` iterations.  It is `none` when none of the iterations is a
pop-to-result. -/
def last_popped {α : Type} (ops : DoubleOps α) (bytecode : List uint8_t) (vm0 : VM α) :
    Nat → Option α
  | 0 => none
  | k + 1 =>
    match iterations ops bytecode k vm0 with
    | some vm =>
      if opcode_at bytecode vm = some 8 then (live vm).head?
      else last_popped ops bytecode vm0 k
    | none => last_popped ops bytecode vm0 k

/-- A previous content of the global `vm`, used when evaluating concrete
programs. -/
def blank : VM ℚ :=
  { ip := none, stack := fun _ => 7, stack_top := 3, result := 42 }

/-! ## The interpreter, one instruction at a time -/

section StepLemmas

variable {α : Type} (ops : DoubleOps α) (bytecode : List uint8_t)

theorem fetch_some {vm : VM α} {i : Nat} {b : uint8_t} (hip : vm.ip = some i)
    (hb : bytecode[i]? = some b) :
    fetch bytecode vm = .ok (b, { vm with ip := some (i + 1) }) := by
  simp [fetch, hip, hb]

theorem fetch_past {vm : VM α} {i : Nat} (hip : vm.ip = some i) (hi : bytecode.length ≤ i) :
    fetch (α := α) bytecode vm = .error .read_past_bytecode := by
  have : bytecode[i]? = none := List.getElem?_eq_none hi
  simp [fetch, hip, this]

/-- An opcode fetch at or past the end of the buffer is an out-of-bounds read. -/
theorem step_past {vm : VM α} {i : Nat} (hip : vm.ip = some i) (hi : bytecode.length ≤ i) :
    step ops bytecode vm = .error .read_past_bytecode := by
  simp [step, fetch_past bytecode hip hi, bind, Except.bind]

/-- Push-immediate whose operand byte lies past the end of the buffer. -/
theorem step_pushi_past {vm : VM α} {i : Nat} {b : uint8_t} (hip : vm.ip = some i)
    (hb : bytecode[i]? = some b) (hop : b.val = 0) (hi : bytecode.length ≤ i + 1) :
    step ops bytecode vm = .error .read_past_bytecode := by
  have : bytecode[i + 1]? = none := List.getElem?_eq_none hi
  simp [step, fetch, hip, hb, hop, this, bind, Except.bind]

/-- Push-immediate with room on the stack. -/
theorem step_pushi {vm : VM α} {i : Nat} {b x : uint8_t} (hip : vm.ip = some i)
    (hb : bytecode[i]? = some b) (hop : b.val = 0) (hx : bytecode[i + 1]? = some x)
    (htop : vm.stack_top < STACK_MAX) :
    step ops bytecode vm = .ok (.next { vm with
      ip := some (i + 2), stack := write vm.stack vm.stack_top (ops.ofByte x),
      stack_top := vm.stack_top + 1 }) := by
  simp [step, fetch, hip, hb, hop, hx, vm_stack_push, htop, bind, Except.bind, pure, Except.pure]

/-- Push-immediate on a full stack stores past the last cell. -/
theorem step_pushi_full {vm : VM α} {i : Nat} {b x : uint8_t} (hip : vm.ip = some i)
    (hb : bytecode[i]? = some b) (hop : b.val = 0) (hx : bytecode[i + 1]? = some x)
    (htop : STACK_MAX ≤ vm.stack_top) :
    step ops bytecode vm = .error .write_past_stack := by
  have : ¬ vm.stack_top < STACK_MAX := by omega
  simp [step, fetch, hip, hb, hop, hx, vm_stack_push, this, bind, Except.bind]

/-- Any popping instruction (opcodes 1 to 8) on an empty stack moves
`stack_top` below the first cell. -/
theorem step_pop_empty {vm : VM α} {i : Nat} {b : uint8_t} (hip : vm.ip = some i)
    (hb : bytecode[i]? = some b) (hop : 1 ≤ b.val ∧ b.val ≤ 8) (htop : vm.stack_top = 0) :
    step ops bytecode vm = .error .pop_below_stack := by
  obtain ⟨h1, h8⟩ := hop
  interval_cases hv : b.val <;>
    simp [step, fetch, hip, hb, hv, vm_stack_pop, htop, bind, Except.bind]

theorem step_add {vm : VM α} {i n : Nat} {b : uint8_t} (hip : vm.ip = some i)
    (hb : bytecode[i]? = some b) (hop : b.val = 1) (htop : vm.stack_top = n + 2)
    (hn : n < STACK_MAX) :
    step ops bytecode vm = .ok (.next { vm with
      ip := some (i + 1), stack := write vm.stack n (ops.add (vm.stack n) (vm.stack (n + 1))),
      stack_top := n + 1 }) := by
  simp [step, fetch, hip, hb, hop, vm_stack_push, vm_stack_pop, htop, hn, bind, Except.bind,
    pure, Except.pure]

theorem step_sub {vm : VM α} {i n : Nat} {b : uint8_t} (hip : vm.ip = some i)
    (hb : bytecode[i]? = some b) (hop : b.val = 2) (htop : vm.stack_top = n + 2)
    (hn : n < STACK_MAX) :
    step ops bytecode vm = .ok (.next { vm with
      ip := some (i + 1), stack := write vm.stack n (ops.sub (vm.stack n) (vm.stack (n + 1))),
      stack_top := n + 1 }) := by
  simp [step, fetch, hip, hb, hop, vm_stack_push, vm_stack_pop, htop, hn, bind, Except.bind,
    pure, Except.pure]

/-- Divide with a divisor that does not compare equal to zero. -/
theorem step_div {vm : VM α} {i n : Nat} {b : uint8_t} (hip : vm.ip = some i)
    (hb : bytecode[i]? = some b) (hop : b.val = 3) (htop : vm.stack_top = n + 2)
    (hn : n < STACK_MAX) (hz : ops.eqZero (vm.stack (n + 1)) = false) :
    step ops bytecode vm = .ok (.next { vm with
      ip := some (i + 1), stack := write vm.stack n (ops.div (vm.stack n) (vm.stack (n + 1))),
      stack_top := n + 1 }) := by
  simp [step, fetch, hip, hb, hop, vm_stack_push, vm_stack_pop, htop, hn, bind, Except.bind,
    pure, Except.pure, hz]

/-- Divide with a divisor that compares equal to zero: only the divisor is
popped before the `return`. -/
theorem step_div_zero {vm : VM α} {i n : Nat} {b : uint8_t} (hip : vm.ip = some i)
    (hb : bytecode[i]? = some b) (hop : b.val = 3) (htop : vm.stack_top = n + 1)
    (hz : ops.eqZero (vm.stack n) = true) :
    step ops bytecode vm = .ok (.ret .ERROR_DIVISION_BY_ZERO { vm with
      ip := some (i + 1), stack_top := n }) := by
  simp [step, fetch, hip, hb, hop, vm_stack_push, vm_stack_pop, htop, bind, Except.bind,
    pure, Except.pure, hz]

theorem step_mul {vm : VM α} {i n : Nat} {b : uint8_t} (hip : vm.ip = some i)
    (hb : bytecode[i]? = some b) (hop : b.val = 4) (htop : vm.stack_top = n + 2)
    (hn : n < STACK_MAX) :
    step ops bytecode vm = .ok (.next { vm with
      ip := some (i + 1), stack := write vm.stack n (ops.mul (vm.stack n) (vm.stack (n + 1))),
      stack_top := n + 1 }) := by
  simp [step, fetch, hip, hb, hop, vm_stack_push, vm_stack_pop, htop, hn, bind, Except.bind,
    pure, Except.pure]

theorem step_pow {vm : VM α} {i n : Nat} {b : uint8_t} (hip : vm.ip = some i)
    (hb : bytecode[i]? = some b) (hop : b.val = 5) (htop : vm.stack_top = n + 2)
    (hn : n < STACK_MAX) :
    step ops bytecode vm = .ok (.next { vm with
      ip := some (i + 1), stack := write vm.stack n (ops.pow (vm.stack n) (vm.stack (n + 1))),
      stack_top := n + 1 }) := by
  simp [step, fetch, hip, hb, hop, vm_stack_push, vm_stack_pop, htop, hn, bind, Except.bind,
    pure, Except.pure]

theorem step_sqrt {vm : VM α} {i n : Nat} {b : uint8_t} (hip : vm.ip = some i)
    (hb : bytecode[i]? = some b) (hop : b.val = 6) (htop : vm.stack_top = n + 1)
    (hn : n < STACK_MAX) :
    step ops bytecode vm = .ok (.next { vm with
      ip := some (i + 1), stack := write vm.stack n (ops.sqrt (vm.stack n)),
      stack_top := n + 1 }) := by
  simp [step, fetch, hip, hb, hop, vm_stack_push, vm_stack_pop, htop, hn, bind, Except.bind,
    pure, Except.pure]

theorem step_ln {vm : VM α} {i n : Nat} {b : uint8_t} (hip : vm.ip = some i)
    (hb : bytecode[i]? = some b) (hop : b.val = 7) (htop : vm.stack_top = n + 1)
    (hn : n < STACK_MAX) :
    step ops bytecode vm = .ok (.next { vm with
      ip := some (i + 1), stack := write vm.stack n (ops.log (vm.stack n)),
      stack_top := n + 1 }) := by
  simp [step, fetch, hip, hb, hop, vm_stack_push, vm_stack_pop, htop, hn, bind, Except.bind,
    pure, Except.pure]

theorem step_pop_res {vm : VM α} {i n : Nat} {b : uint8_t} (hip : vm.ip = some i)
    (hb : bytecode[i]? = some b) (hop : b.val = 8) (htop : vm.stack_top = n + 1) :
    step ops bytecode vm = .ok (.next { vm with
      ip := some (i + 1), stack_top := n, result := vm.stack n }) := by
  simp [step, fetch, hip, hb, hop, vm_stack_pop, htop, bind, Except.bind, pure, Except.pure]

theorem step_done {vm : VM α} {i : Nat} {b : uint8_t} (hip : vm.ip = some i)
    (hb : bytecode[i]? = some b) (hop : b.val = 9) :
    step ops bytecode vm = .ok (.ret .SUCCESS { vm with ip := some (i + 1) }) := by
  simp [step, fetch, hip, hb, hop, bind, Except.bind, pure, Except.pure]

theorem step_unknown {vm : VM α} {i : Nat} {b : uint8_t} (hip : vm.ip = some i)
    (hb : bytecode[i]? = some b) (hop : 10 ≤ b.val) :
    step ops bytecode vm = .ok (.ret .ERROR_UNKNOWN_OPCODE { vm with ip := some (i + 1) }) := by
  simp only [step, fetch, hip, hb, bind, Except.bind, pure, Except.pure]
  split <;> first | omega | rfl

/-- An iteration that ends in `break` has moved `ip` forward, inside the
buffer or to its end. -/
theorem step_next_ip {vm vm' : VM α} {i : Nat} (hip : vm.ip = some i)
    (h : step ops bytecode vm = .ok (.next vm')) :
    ∃ i', vm'.ip = some i' ∧ i < i' ∧ i' ≤ bytecode.length := by
  simp only [step, fetch, hip, bind, Except.bind, pure, Except.pure] at h
  cases hb : bytecode[i]? with
  | none => simp [hb] at h
  | some b =>
    have hlt : i < bytecode.length := (List.getElem?_eq_some_iff.1 hb).1
    simp only [hb] at h
    split at h
    · cases hx : bytecode[i + 1]? with
      | none => simp [hx] at h
      | some x =>
        have hlt2 : i + 1 < bytecode.length := (List.getElem?_eq_some_iff.1 hx).1
        simp only [hx, vm_stack_push] at h
        split_ifs at h
        simp at h
        subst h
        exact ⟨i + 2, rfl, by omega, by omega⟩
    all_goals
      try simp only [vm_stack_pop, vm_stack_push] at h
      repeat' (split_ifs at h <;> try simp only [] at h)
      all_goals
        first
        | (simp at h; subst h; exact ⟨i + 1, rfl, by omega, by omega⟩)
        | (simp at h)

/-- An iteration that ends in `return`: the opcode fetched decides the
returned value, `ip` stands just past that opcode, the result register and the
stack cells are as they were, and the only value removed from the stack is the
zero divisor of a failing divide. -/
theorem step_ret_inv {vm vm' : VM α} {i : Nat} {r : interpret_result} (hip : vm.ip = some i)
    (h : step ops bytecode vm = .ok (.ret r vm')) :
    ∃ b, bytecode[i]? = some b ∧ vm'.ip = some (i + 1) ∧ vm'.result = vm.result ∧
      vm'.stack = vm.stack ∧
      ((r = .SUCCESS ∧ b.val = 9 ∧ vm'.stack_top = vm.stack_top) ∨
       (r = .ERROR_UNKNOWN_OPCODE ∧ 10 ≤ b.val ∧ vm'.stack_top = vm.stack_top) ∨
       (r = .ERROR_DIVISION_BY_ZERO ∧ b.val = 3 ∧ vm.stack_top = vm'.stack_top + 1 ∧
          ops.eqZero (vm.stack vm'.stack_top) = true)) := by
  simp only [step, fetch, hip, bind, Except.bind, pure, Except.pure] at h
  cases hb : bytecode[i]? with
  | none => simp [hb] at h
  | some b =>
    refine ⟨b, rfl, ?_⟩
    simp only [hb] at h
    split at h
    · cases hx : bytecode[i + 1]? with
      | none => simp [hx] at h
      | some x =>
        simp only [hx, vm_stack_push] at h
        split_ifs at h
        simp at h
    all_goals
      try simp only [vm_stack_pop, vm_stack_push] at h
      repeat' (split_ifs at h <;> try simp only [] at h)
      all_goals
        first
        | (simp at h; done)
        | (simp at h
           obtain ⟨h1, h2⟩ := h
           subst h1 h2
           refine ⟨rfl, rfl, rfl, ?_⟩
           simp only [imp_false] at *
           simp
           first
           | assumption
           | omega
           | (refine ⟨by assumption, by omega, ?_⟩; assumption))

/-- An iteration that leaves defined behaviour, from a state whose `ip` is not
`NULL`: which instruction did it, at which stack height. -/
theorem step_error_inv {vm : VM α} {i : Nat} {u : Undefined} (hip : vm.ip = some i)
    (h : step ops bytecode vm = .error u) :
    (u = .read_past_bytecode ∧
      (bytecode.length ≤ i ∨ (∃ b, bytecode[i]? = some b ∧ b.val = 0 ∧ bytecode.length ≤ i + 1))) ∨
    (u = .write_past_stack ∧ ∃ b, bytecode[i]? = some b ∧ b.val ≤ 7 ∧
      STACK_MAX ≤ vm.stack_top + (if b.val = 0 then 0 else 1)) ∨
    (u = .pop_below_stack ∧ ∃ b, bytecode[i]? = some b ∧ 1 ≤ b.val ∧ b.val ≤ 8 ∧
      vm.stack_top ≤ 1) := by
  simp only [step, fetch, hip, bind, Except.bind, pure, Except.pure] at h
  cases hb : bytecode[i]? with
  | none =>
    simp [hb] at h
    subst h
    exact Or.inl ⟨rfl, Or.inl (List.getElem?_eq_none_iff.1 hb)⟩
  | some b =>
    simp only [hb] at h
    split at h
    · cases hx : bytecode[i + 1]? with
      | none =>
        simp [hx] at h
        subst h
        exact Or.inl ⟨rfl, Or.inr ⟨b, rfl, by assumption, List.getElem?_eq_none_iff.1 hx⟩⟩
      | some x =>
        simp only [hx, vm_stack_push] at h
        split_ifs at h
        simp at h
        subst h
        refine Or.inr (Or.inl ⟨rfl, b, rfl, by omega, ?_⟩)
        simp [*]
        omega
    all_goals
      try simp only [vm_stack_pop, vm_stack_push] at h
      repeat' (split_ifs at h <;> try simp only [] at h)
      all_goals
        first
        | (simp at h; done)
        | (simp at h
           subst h
           first
           | (refine Or.inr (Or.inr ⟨rfl, b, rfl, by omega, by omega, by omega⟩))
           | (refine Or.inr (Or.inl ⟨rfl, b, rfl, by omega, ?_⟩)
              have hne : ¬ (b.val = 0) := by omega
              simp only [hne, if_false]
              omega))

end StepLemmas

/-! ## The loop -/

section LoopLemmas

variable {α : Type} (ops : DoubleOps α) (bytecode : List uint8_t)

/-- After `k` complete iterations the loop continues from the state reached. -/
theorem loop_of_iterations {k : Nat} (n : Nat) {vm0 vm : VM α}
    (h : iterations ops bytecode k vm0 = some vm) :
    vm_interpret_loop ops bytecode (k + n) vm0 = vm_interpret_loop ops bytecode n vm := by
  induction k generalizing vm0 with
  | zero =>
    simp only [iterations, Option.some.injEq] at h
    subst h
    simp
  | succ k ih =>
    rw [Nat.succ_add]
    simp only [iterations] at h
    simp only [vm_interpret_loop]
    cases hs : step ops bytecode vm0 with
    | error u => simp [hs] at h
    | ok f =>
      cases f with
      | ret r v => simp [hs] at h
      | next v =>
        simp only [hs] at h
        exact ih h

/-- Every complete iteration moves `ip` forward by at least one byte and never
past the end of the buffer. -/
theorem iterations_ip {k : Nat} {vm0 vm : VM α} {i0 : Nat}
    (h : iterations ops bytecode k vm0 = some vm) (hip : vm0.ip = some i0)
    (hi0 : i0 ≤ bytecode.length) :
    ∃ i, vm.ip = some i ∧ i0 + k ≤ i ∧ i ≤ bytecode.length := by
  induction k generalizing vm0 i0 with
  | zero =>
    simp only [iterations, Option.some.injEq] at h
    subst h
    exact ⟨i0, hip, by omega, hi0⟩
  | succ k ih =>
    simp only [iterations] at h
    cases hs : step ops bytecode vm0 with
    | error u => simp [hs] at h
    | ok f =>
      cases f with
      | ret r v => simp [hs] at h
      | next v =>
        simp only [hs] at h
        obtain ⟨i1, hip1, hlt, hle⟩ := step_next_ip ops bytecode hip hs
        obtain ⟨i, hi, hge, hle2⟩ := ih h hip1 hle
        exact ⟨i, hi, by omega, hle2⟩

theorem iterations_succ {k : Nat} {vm0 vm vm' : VM α}
    (h : iterations ops bytecode k vm0 = some vm)
    (hs : step ops bytecode vm = .ok (.next vm')) :
    iterations ops bytecode (k + 1) vm0 = some vm' := by
  induction k generalizing vm0 with
  | zero =>
    simp only [iterations, Option.some.injEq] at h
    subst h
    simp [iterations, hs]
  | succ k ih =>
    simp only [iterations] at h
    cases hs0 : step ops bytecode vm0 with
    | error u => simp [hs0] at h
    | ok f =>
      cases f with
      | ret r v => simp [hs0] at h
      | next v =>
        simp only [hs0] at h
        have := ih h
        rw [iterations]
        simp only [hs0]
        exact this

/-- The budget `bytecode.length + 1` is never exhausted. -/
theorem vm_interpret_loop_fuel (fuel : Nat) {vm : VM α} {i : Nat} (hip : vm.ip = some i)
    (hi : i ≤ bytecode.length) (hfuel : bytecode.length + 1 ≤ fuel + i) :
    vm_interpret_loop ops bytecode fuel vm ≠ .out_of_fuel := by
  induction fuel generalizing vm i with
  | zero => omega
  | succ fuel ih =>
    simp only [vm_interpret_loop]
    cases hs : step ops bytecode vm with
    | error u => simp
    | ok f =>
      cases f with
      | ret r v => simp
      | next v =>
        obtain ⟨i1, hip1, hlt, hle⟩ := step_next_ip ops bytecode hip hs
        exact ih hip1 hle (by omega)

/-- The loop returns `r` exactly when some iteration within the budget
executes a `return r`. -/
theorem loop_returned_iff (fuel : Nat) (vm0 vm' : VM α) (r : interpret_result) :
    vm_interpret_loop ops bytecode fuel vm0 = .returned r vm' ↔
      ∃ k vm, k < fuel ∧ iterations ops bytecode k vm0 = some vm ∧
        step ops bytecode vm = .ok (.ret r vm') := by
  constructor
  · intro h
    induction fuel generalizing vm0 with
    | zero => simp [vm_interpret_loop] at h
    | succ fuel ih =>
      simp only [vm_interpret_loop] at h
      cases hs : step ops bytecode vm0 with
      | error u => simp [hs] at h
      | ok f =>
        cases f with
        | ret r1 v =>
          simp only [hs, Outcome.returned.injEq] at h
          obtain ⟨h1, h2⟩ := h
          subst h1 h2
          exact ⟨0, vm0, by omega, rfl, hs⟩
        | next v =>
          simp only [hs] at h
          obtain ⟨k, vm, hk, hit, hst⟩ := ih v h
          refine ⟨k + 1, vm, by omega, ?_, hst⟩
          simp [iterations, hs, hit]
  · rintro ⟨k, vm, hk, hit, hst⟩
    obtain ⟨n, rfl⟩ : ∃ n, fuel = k + (n + 1) := ⟨fuel - k - 1, by omega⟩
    rw [loop_of_iterations ops bytecode (n + 1) hit]
    simp [vm_interpret_loop, hst]

/-- The loop leaves defined behaviour exactly when some iteration within the
budget does. -/
theorem loop_undefined_iff (fuel : Nat) (vm0 : VM α) (u : Undefined) :
    vm_interpret_loop ops bytecode fuel vm0 = .undefined u ↔
      ∃ k vm, k < fuel ∧ iterations ops bytecode k vm0 = some vm ∧
        step ops bytecode vm = .error u := by
  constructor
  · intro h
    induction fuel generalizing vm0 with
    | zero => simp [vm_interpret_loop] at h
    | succ fuel ih =>
      simp only [vm_interpret_loop] at h
      cases hs : step ops bytecode vm0 with
      | error u1 =>
        simp only [hs, Outcome.undefined.injEq] at h
        subst h
        exact ⟨0, vm0, by omega, rfl, hs⟩
      | ok f =>
        cases f with
        | ret r1 v => simp [hs] at h
        | next v =>
          simp only [hs] at h
          obtain ⟨k, vm, hk, hit, hst⟩ := ih v h
          refine ⟨k + 1, vm, by omega, ?_, hst⟩
          simp [iterations, hs, hit]
  · rintro ⟨k, vm, hk, hit, hst⟩
    obtain ⟨n, rfl⟩ : ∃ n, fuel = k + (n + 1) := ⟨fuel - k - 1, by omega⟩
    rw [loop_of_iterations ops bytecode (n + 1) hit]
    simp [vm_interpret_loop, hst]

theorem entry_ip (prior : VM α) : (entry ops prior).ip = some 0 := rfl

theorem vm_interpret_eq (prior : VM α) :
    vm_interpret ops prior bytecode =
      vm_interpret_loop ops bytecode (bytecode.length + 1) (entry ops prior) := rfl

/-- A state reached by complete iterations of a call has made at most
`bytecode.length` of them, and its `ip` points into the buffer or to its
end. -/
theorem reached_ip {k : Nat} {prior vm : VM α}
    (h : iterations ops bytecode k (entry ops prior) = some vm) :
    ∃ i, vm.ip = some i ∧ k ≤ i ∧ i ≤ bytecode.length := by
  obtain ⟨i, hi, hk, hle⟩ := iterations_ip ops bytecode h (entry_ip ops prior) (Nat.zero_le _)
  exact ⟨i, hi, by omega, hle⟩

/-- A call returns `r` leaving `vm'` exactly when some iteration of its run
executes that `return`. -/
theorem vm_interpret_returned_iff (prior vm' : VM α) (r : interpret_result) :
    vm_interpret ops prior bytecode = .returned r vm' ↔
      ∃ k vm, iterations ops bytecode k (entry ops prior) = some vm ∧
        step ops bytecode vm = .ok (.ret r vm') := by
  rw [vm_interpret_eq, loop_returned_iff]
  constructor
  · rintro ⟨k, vm, _, hit, hst⟩
    exact ⟨k, vm, hit, hst⟩
  · rintro ⟨k, vm, hit, hst⟩
    obtain ⟨i, _, hk, hle⟩ := reached_ip ops bytecode hit
    exact ⟨k, vm, by omega, hit, hst⟩

/-- A call leaves defined behaviour exactly when some iteration of its run
does. -/
theorem vm_interpret_undefined_iff (prior : VM α) (u : Undefined) :
    vm_interpret ops prior bytecode = .undefined u ↔
      ∃ k vm, iterations ops bytecode k (entry ops prior) = some vm ∧
        step ops bytecode vm = .error u := by
  rw [vm_interpret_eq, loop_undefined_iff]
  constructor
  · rintro ⟨k, vm, _, hit, hst⟩
    exact ⟨k, vm, hit, hst⟩
  · rintro ⟨k, vm, hit, hst⟩
    obtain ⟨i, _, hk, hle⟩ := reached_ip ops bytecode hit
    exact ⟨k, vm, by omega, hit, hst⟩

end LoopLemmas

/-! ## The interpreter against the reference semantics -/

section Refinement

variable {α : Type} (ops : DoubleOps α)

theorem cells_length (stack : Nat → α) (n : Nat) : (cells stack n).length = n := by
  induction n with
  | zero => rfl
  | succ n ih => simp [cells, ih]

theorem cells_write_of_le (stack : Nat → α) (v : α) {n j : Nat} (h : n ≤ j) :
    cells (write stack j v) n = cells stack n := by
  induction n with
  | zero => rfl
  | succ n ih =>
    have hne : n ≠ j := by omega
    simp [cells, write, hne, ih (by omega)]

theorem cells_write_top (stack : Nat → α) (v : α) (n : Nat) :
    cells (write stack n v) (n + 1) = v :: cells stack n := by
  simp [cells, write, cells_write_of_le stack v (Nat.le_refl n)]

theorem cells_eq_cons {stack : Nat → α} {n : Nat} {v : α} {s : List α}
    (h : cells stack n = v :: s) :
    ∃ m, n = m + 1 ∧ stack m = v ∧ cells stack m = s := by
  cases n with
  | zero => simp [cells] at h
  | succ m =>
    simp only [cells, List.cons.injEq] at h
    exact ⟨m, rfl, h.1, h.2⟩

theorem getElem?_append_cons (pre rest : List uint8_t) (b : uint8_t) :
    (pre ++ b :: rest)[pre.length]? = some b := by
  rw [List.getElem?_append_right (Nat.le_refl _)]
  simp

theorem getElem?_append_cons_cons (pre rest : List uint8_t) (b x : uint8_t) :
    (pre ++ b :: x :: rest)[pre.length + 1]? = some x := by
  rw [List.getElem?_append_right (by omega)]
  simp

theorem two_cells {vm : VM α} {right left : α} {s : List α}
    (h : cells vm.stack vm.stack_top = right :: left :: s)
    (hlen : (right :: left :: s).length ≤ STACK_MAX) :
    ∃ n, vm.stack_top = n + 2 ∧ n < STACK_MAX ∧ vm.stack (n + 1) = right ∧ vm.stack n = left ∧
      cells vm.stack n = s := by
  obtain ⟨m, hm, hr, hc⟩ := cells_eq_cons h
  obtain ⟨n, hn, hl, hc'⟩ := cells_eq_cons hc
  subst hn
  have := cells_length vm.stack n
  rw [hc'] at this
  simp only [List.length_cons] at hlen
  exact ⟨n, hm, by omega, hr, hl, hc'⟩

theorem one_cell {vm : VM α} {v : α} {s : List α}
    (h : cells vm.stack vm.stack_top = v :: s) (hlen : (v :: s).length ≤ STACK_MAX) :
    ∃ n, vm.stack_top = n + 1 ∧ n < STACK_MAX ∧ vm.stack n = v ∧ cells vm.stack n = s := by
  obtain ⟨n, hn, hv, hc⟩ := cells_eq_cons h
  have := cells_length vm.stack n
  rw [hc] at this
  simp only [List.length_cons] at hlen
  exact ⟨n, hn, by omega, hv, hc⟩

/-- One instruction other than push-immediate and halt: the interpreter does
on the stack array what the reference semantics does on the list. -/
theorem step_refines_reference_op (bytecode : List uint8_t) {vm : VM α} {i : Nat} {b : uint8_t}
    {stack stack' : List α} {last last' : Option α}
    (hip : vm.ip = some i) (hb : bytecode[i]? = some b) (hlive : live vm = stack)
    (hlen : stack.length ≤ STACK_MAX) (hres : vm.result = last.getD ops.zero)
    (h : reference_op ops b.val stack last = some (stack', last')) :
    ∃ vm', step ops bytecode vm = .ok (.next vm') ∧ vm'.ip = some (i + 1) ∧
      live vm' = stack' ∧ stack'.length ≤ STACK_MAX ∧ vm'.result = last'.getD ops.zero := by
  simp only [live] at hlive
  unfold reference_op at h
  split at h
  · rename_i hop
    obtain ⟨n, htop, hn, hr, hl, hc⟩ := two_cells hlive hlen
    simp only [Option.some.injEq, Prod.mk.injEq] at h
    obtain ⟨rfl, rfl⟩ := h
    exact ⟨_, step_add ops bytecode hip hb hop htop hn, rfl,
      by simp only [live, cells_write_top, hl, hr, hc],
      by simp only [List.length_cons] at hlen ⊢; omega, hres⟩
  · rename_i hop
    obtain ⟨n, htop, hn, hr, hl, hc⟩ := two_cells hlive hlen
    simp only [Option.some.injEq, Prod.mk.injEq] at h
    obtain ⟨rfl, rfl⟩ := h
    exact ⟨_, step_sub ops bytecode hip hb hop htop hn, rfl,
      by simp only [live, cells_write_top, hl, hr, hc],
      by simp only [List.length_cons] at hlen ⊢; omega, hres⟩
  · rename_i hop
    obtain ⟨n, htop, hn, hr, hl, hc⟩ := two_cells hlive hlen
    split_ifs at h with hz
    simp only [Option.some.injEq, Prod.mk.injEq] at h
    obtain ⟨rfl, rfl⟩ := h
    have hz' : ops.eqZero (vm.stack (n + 1)) = false := by rw [hr]; simpa using hz
    exact ⟨_, step_div ops bytecode hip hb hop htop hn hz', rfl,
      by simp only [live, cells_write_top, hl, hr, hc],
      by simp only [List.length_cons] at hlen ⊢; omega, hres⟩
  · rename_i hop
    obtain ⟨n, htop, hn, hr, hl, hc⟩ := two_cells hlive hlen
    simp only [Option.some.injEq, Prod.mk.injEq] at h
    obtain ⟨rfl, rfl⟩ := h
    exact ⟨_, step_mul ops bytecode hip hb hop htop hn, rfl,
      by simp only [live, cells_write_top, hl, hr, hc],
      by simp only [List.length_cons] at hlen ⊢; omega, hres⟩
  · rename_i hop
    obtain ⟨n, htop, hn, hr, hl, hc⟩ := two_cells hlive hlen
    simp only [Option.some.injEq, Prod.mk.injEq] at h
    obtain ⟨rfl, rfl⟩ := h
    exact ⟨_, step_pow ops bytecode hip hb hop htop hn, rfl,
      by simp only [live, cells_write_top, hl, hr, hc],
      by simp only [List.length_cons] at hlen ⊢; omega, hres⟩
  · rename_i hop
    obtain ⟨n, htop, hn, hv, hc⟩ := one_cell hlive hlen
    simp only [Option.some.injEq, Prod.mk.injEq] at h
    obtain ⟨rfl, rfl⟩ := h
    exact ⟨_, step_sqrt ops bytecode hip hb hop htop hn, rfl,
      by simp only [live, cells_write_top, hv, hc],
      by simp only [List.length_cons] at hlen ⊢; omega, hres⟩
  · rename_i hop
    obtain ⟨n, htop, hn, hv, hc⟩ := one_cell hlive hlen
    simp only [Option.some.injEq, Prod.mk.injEq] at h
    obtain ⟨rfl, rfl⟩ := h
    exact ⟨_, step_ln ops bytecode hip hb hop htop hn, rfl,
      by simp only [live, cells_write_top, hv, hc],
      by simp only [List.length_cons] at hlen ⊢; omega, hres⟩
  · rename_i hop
    obtain ⟨n, htop, hn, hv, hc⟩ := one_cell hlive hlen
    simp only [Option.some.injEq, Prod.mk.injEq] at h
    obtain ⟨rfl, rfl⟩ := h
    exact ⟨_, step_pop_res ops bytecode hip hb hop htop, rfl,
      by simp only [live, hc],
      by simp only [List.length_cons] at hlen; omega, by simp [hv]⟩
  · simp at h

/-- Simulation: from a machine state whose live stack and result register
agree with the reference semantics, a run that the reference semantics accepts
returns `SUCCESS` with the result register the reference semantics
announces. -/
theorem loop_refines_reference (bytecode : List uint8_t) (fuel : Nat) :
    ∀ (pre suffix : List uint8_t) (stack : List α) (last out : Option α) (vm : VM α),
      bytecode = pre ++ suffix → vm.ip = some pre.length → live vm = stack →
      stack.length ≤ STACK_MAX → vm.result = last.getD ops.zero → suffix.length < fuel →
      reference ops suffix stack last = some out →
      ∃ vm', vm_interpret_loop ops bytecode fuel vm = .returned .SUCCESS vm' ∧
        vm'.result = out.getD ops.zero := by
  induction fuel with
  | zero => intro pre suffix stack last out vm _ _ _ _ _ hf; omega
  | succ fuel ih =>
    intro pre suffix stack last out vm hbc hip hlive hlen hres hfuel href
    have hdone : ∀ op rest, suffix = op :: rest → op.val = 9 → out = last →
        ∃ vm', vm_interpret_loop ops bytecode (fuel + 1) vm = .returned .SUCCESS vm' ∧
          vm'.result = out.getD ops.zero := by
      intro op rest hs hop hout
      have hb : bytecode[pre.length]? = some op := by
        rw [hbc, hs]; exact getElem?_append_cons pre rest op
      refine ⟨{ vm with ip := some (pre.length + 1) },
        by simp only [vm_interpret_loop, step_done ops bytecode hip hb hop], ?_⟩
      simp [hres, hout]
    match suffix, hbc, hfuel, href, hdone with
    | [], _, _, href, _ => simp [reference] at href
    | [op], _, _, href, hdone =>
      simp only [reference] at href
      split_ifs at href with h9
      simp only [Option.some.injEq] at href
      exact hdone op [] rfl h9 href.symm
    | op :: x :: rest, hbc, hfuel, href, hdone =>
      have hb : bytecode[pre.length]? = some op := by
        rw [hbc]; exact getElem?_append_cons pre _ op
      simp only [List.length_cons] at hfuel
      rw [reference] at href
      split_ifs at href with h9 h0 hroom
      · simp only [Option.some.injEq] at href
        exact hdone op _ rfl h9 href.symm
      · have hx : bytecode[pre.length + 1]? = some x := by
          rw [hbc]; exact getElem?_append_cons_cons pre rest op x
        have hcl := cells_length vm.stack vm.stack_top
        simp only [live] at hlive
        rw [hlive] at hcl
        have hst := step_pushi ops bytecode hip hb h0 hx (by omega)
        simp only [vm_interpret_loop, hst]
        refine ih (pre ++ [op, x]) rest _ last out _ (by simp [hbc]) (by simp) ?_ ?_ hres
          (by omega) href
        · simp only [live, cells_write_top, hlive]
        · simp only [List.length_cons]; omega
      · cases hop : reference_op ops op.val stack last with
        | none => simp [hop] at href
        | some p =>
          obtain ⟨stack', last'⟩ := p
          simp only [hop] at href
          obtain ⟨vm1, hst, hip1, hlive1, hlen1, hres1⟩ :=
            step_refines_reference_op ops bytecode hip hb hlive hlen hres hop
          simp only [vm_interpret_loop, hst]
          exact ih (pre ++ [op]) (x :: rest) stack' last' out vm1 (by simp [hbc])
            (by simp [hip1]) hlive1 hlen1 hres1 (by simp only [List.length_cons]; omega) href

/-- An instruction other than push-immediate and halt, followed by at least one
more byte, in the reference semantics. -/
theorem reference_cons_op {op : uint8_t} {rest : List uint8_t} {stack stack' : List α}
    {last last' : Option α} (hrest : rest ≠ []) (h9 : op.val ≠ 9) (h0 : op.val ≠ 0)
    (h : reference_op ops op.val stack last = some (stack', last')) :
    reference ops (op :: rest) stack last = reference ops rest stack' last' := by
  cases rest with
  | nil => exact absurd rfl hrest
  | cons x rest =>
    rw [reference]
    simp [h9, h0, h]

/-- The reference semantics evaluates the postfix code of an expression to the
expression's value, pushed on the stack. -/
theorem reference_code (e : Expr) :
    ∀ (rest : List uint8_t) (stack : List α) (last : Option α), rest ≠ [] →
      e.DivSafe ops → stack.length + e.slots ≤ STACK_MAX →
      reference ops (e.code ++ rest) stack last =
        reference ops rest (e.value ops :: stack) last := by
  induction e with
  | lit x =>
    intro rest stack last _ _ hs
    simp only [Expr.slots] at hs
    have : stack.length < STACK_MAX := by omega
    simp only [Expr.code, List.cons_append, List.nil_append]
    rw [reference]
    simp [this, Expr.value]
  | add l r ihl ihr =>
    intro rest stack last hrest hsafe hs
    simp only [Expr.slots] at hs
    simp only [Expr.DivSafe] at hsafe
    simp only [Expr.code, List.append_assoc, List.cons_append, List.nil_append]
    rw [ihl _ stack last (by simp) hsafe.1 (by omega),
      ihr _ _ last (by simp) hsafe.2 (by simp only [List.length_cons]; omega)]
    exact reference_cons_op ops hrest (by decide) (by decide) rfl
  | sub l r ihl ihr =>
    intro rest stack last hrest hsafe hs
    simp only [Expr.slots] at hs
    simp only [Expr.DivSafe] at hsafe
    simp only [Expr.code, List.append_assoc, List.cons_append, List.nil_append]
    rw [ihl _ stack last (by simp) hsafe.1 (by omega),
      ihr _ _ last (by simp) hsafe.2 (by simp only [List.length_cons]; omega)]
    exact reference_cons_op ops hrest (by decide) (by decide) rfl
  | div l r ihl ihr =>
    intro rest stack last hrest hsafe hs
    simp only [Expr.slots] at hs
    simp only [Expr.DivSafe] at hsafe
    simp only [Expr.code, List.append_assoc, List.cons_append, List.nil_append]
    rw [ihl _ stack last (by simp) hsafe.1 (by omega),
      ihr _ _ last (by simp) hsafe.2.1 (by simp only [List.length_cons]; omega)]
    refine reference_cons_op ops hrest (by decide) (by decide) ?_
    show reference_op ops 3 _ _ = _
    simp [reference_op, hsafe.2.2, Expr.value]
  | mul l r ihl ihr =>
    intro rest stack last hrest hsafe hs
    simp only [Expr.slots] at hs
    simp only [Expr.DivSafe] at hsafe
    simp only [Expr.code, List.append_assoc, List.cons_append, List.nil_append]
    rw [ihl _ stack last (by simp) hsafe.1 (by omega),
      ihr _ _ last (by simp) hsafe.2 (by simp only [List.length_cons]; omega)]
    exact reference_cons_op ops hrest (by decide) (by decide) rfl
  | pow l r ihl ihr =>
    intro rest stack last hrest hsafe hs
    simp only [Expr.slots] at hs
    simp only [Expr.DivSafe] at hsafe
    simp only [Expr.code, List.append_assoc, List.cons_append, List.nil_append]
    rw [ihl _ stack last (by simp) hsafe.1 (by omega),
      ihr _ _ last (by simp) hsafe.2 (by simp only [List.length_cons]; omega)]
    exact reference_cons_op ops hrest (by decide) (by decide) rfl
  | sqrt a iha =>
    intro rest stack last hrest hsafe hs
    simp only [Expr.slots] at hs
    simp only [Expr.DivSafe] at hsafe
    simp only [Expr.code, List.append_assoc, List.cons_append, List.nil_append]
    rw [iha _ stack last (by simp) hsafe hs]
    exact reference_cons_op ops hrest (by decide) (by decide) rfl
  | ln a iha =>
    intro rest stack last hrest hsafe hs
    simp only [Expr.slots] at hs
    simp only [Expr.DivSafe] at hsafe
    simp only [Expr.code, List.append_assoc, List.cons_append, List.nil_append]
    rw [iha _ stack last (by simp) hsafe hs]
    exact reference_cons_op ops hrest (by decide) (by decide) rfl

/-- A program accepted by the reference semantics makes `vm_interpret` return
`SUCCESS` with the announced result register. -/
theorem vm_interpret_refines_reference (prior : VM α) (bytecode : List uint8_t)
    (last : Option α) (h : reference ops bytecode [] none = some last) :
    ∃ vm', vm_interpret ops prior bytecode = .returned .SUCCESS vm' ∧
      vm'.result = last.getD ops.zero :=
  loop_refines_reference ops bytecode (bytecode.length + 1) [] bytecode [] none last
    (entry ops prior) rfl rfl rfl (Nat.zero_le _) rfl (Nat.lt_succ_self _) h

theorem pushes_length (xs : List uint8_t) : (pushes xs).length = 2 * xs.length := by
  induction xs with
  | nil => rfl
  | cons x xs ih => simp only [pushes, List.length_cons, ih]; omega

/-- A run of push-immediates longer than the room left on the stack ends in a
store past the last stack cell. -/
theorem loop_pushes_past_stack (bytecode t : List uint8_t) :
    ∀ (xs pre : List uint8_t) (vm : VM α) (fuel : Nat),
      bytecode = pre ++ pushes xs ++ t → vm.ip = some pre.length →
      vm.stack_top ≤ STACK_MAX → STACK_MAX < vm.stack_top + xs.length → xs.length ≤ fuel →
      vm_interpret_loop ops bytecode fuel vm = .undefined .write_past_stack := by
  intro xs
  induction xs with
  | nil =>
    intro pre vm fuel _ _ h1 h2 _
    simp only [List.length_nil] at h2
    omega
  | cons x xs ih =>
    intro pre vm fuel hbc hip htop hover hfuel
    simp only [List.length_cons] at hover hfuel
    obtain ⟨fuel, rfl⟩ : ∃ n, fuel = n + 1 := ⟨fuel - 1, by omega⟩
    have hb : bytecode[pre.length]? = some 0 := by
      rw [hbc]
      simp only [pushes, List.append_assoc, List.cons_append]
      exact getElem?_append_cons pre _ 0
    have hx : bytecode[pre.length + 1]? = some x := by
      rw [hbc]
      simp only [pushes, List.append_assoc, List.cons_append]
      exact getElem?_append_cons_cons pre _ 0 x
    by_cases hfull : vm.stack_top = STACK_MAX
    · simp only [vm_interpret_loop,
        step_pushi_full ops bytecode hip hb rfl hx (Nat.le_of_eq hfull.symm)]
    · have hst := step_pushi ops bytecode hip hb rfl hx (by omega)
      simp only [vm_interpret_loop, hst]
      exact ih (pre ++ [0, x]) _ fuel (by simp [hbc, pushes]) (by simp) (by simp only; omega)
        (by simp only; omega) (by omega)

/-- More push-immediates than stack cells, whatever follows them. -/
theorem vm_interpret_pushes_past_stack (prior : VM α) (xs t : List uint8_t)
    (h : STACK_MAX < xs.length) :
    vm_interpret ops prior (pushes xs ++ t) = .undefined .write_past_stack := by
  rw [vm_interpret_eq]
  refine loop_pushes_past_stack ops _ t xs [] _ _ (by simp) rfl (Nat.zero_le _)
    (by simpa [entry, vm_reset] using h) ?_
  simp only [List.length_append, pushes_length]
  omega

theorem status_eq_some_iff (o : Outcome α) (r : interpret_result) :
    o.status = some r ↔ ∃ vm', o = .returned r vm' := by
  cases o with
  | returned r' vm => simp [Outcome.status]
  | undefined u => simp [Outcome.status]
  | out_of_fuel => simp [Outcome.status]

theorem exactOps_exactZero : exactOps.ExactZero := by
  intro x
  simp [exactOps, Fin.ext_iff]

end Refinement

/-! ## More on single iterations and on reached states -/

section Reached

variable {α : Type} (ops : DoubleOps α) (bytecode : List uint8_t)

/-- An iteration that ends in `break`: the opcode fetched is one of 0 to 8,
`ip` has advanced by two for push-immediate and by one otherwise, only
pop-to-result has written the result register, and the stack height stays
within the capacity. -/
theorem step_next_inv {vm vm' : VM α} {i : Nat} (hip : vm.ip = some i)
    (h : step ops bytecode vm = .ok (.next vm')) :
    ∃ b, bytecode[i]? = some b ∧ b.val ≤ 8 ∧
      vm'.ip = some (if b.val = 0 then i + 2 else i + 1) ∧
      (b.val ≠ 8 → vm'.result = vm.result) ∧
      (vm.stack_top ≤ STACK_MAX → vm'.stack_top ≤ STACK_MAX) := by
  simp only [step, fetch, hip, bind, Except.bind, pure, Except.pure] at h
  cases hb : bytecode[i]? with
  | none => simp [hb] at h
  | some b =>
    refine ⟨b, rfl, ?_⟩
    simp only [hb] at h
    split at h
    · rename_i hop
      cases hx : bytecode[i + 1]? with
      | none => simp [hx] at h
      | some x =>
        simp only [hx, vm_stack_push] at h
        split_ifs at h
        simp at h
        subst h
        refine ⟨by omega, ?_, fun _ => rfl, fun _ => ?_⟩
        · rw [if_pos hop]
        · dsimp only
          omega
    all_goals
      try simp only [vm_stack_pop, vm_stack_push] at h
      repeat' (split_ifs at h <;> try simp only [] at h)
      all_goals
        first
        | (simp at h; done)
        | (simp at h
           subst h
           refine ⟨by omega, ?_, ?_, ?_⟩
           · have hne : ¬ (b.val = 0) := by omega
             rw [if_neg hne]
           · intro h8
             first
             | rfl
             | omega
           · intro hle
             try dsimp only
             omega)

/-- The last of `k + 1` complete iterations starts from the state reached by
the first `k`. -/
theorem iterations_succ_inv {k : Nat} {vm0 vm' : VM α}
    (h : iterations ops bytecode (k + 1) vm0 = some vm') :
    ∃ vm, iterations ops bytecode k vm0 = some vm ∧
      step ops bytecode vm = .ok (.next vm') := by
  induction k generalizing vm0 with
  | zero =>
    simp only [iterations] at h
    cases hs : step ops bytecode vm0 with
    | error u => simp [hs] at h
    | ok f =>
      cases f with
      | ret r v => simp [hs] at h
      | next v =>
        simp only [hs, Option.some.injEq] at h
        subst h
        exact ⟨vm0, rfl, hs⟩
  | succ k ih =>
    rw [iterations] at h
    cases hs : step ops bytecode vm0 with
    | error u => simp [hs] at h
    | ok f =>
      cases f with
      | ret r v => simp [hs] at h
      | next v =>
        simp only [hs] at h
        obtain ⟨vm, hit, hst⟩ := ih h
        refine ⟨vm, ?_, hst⟩
        rw [iterations]
        simp only [hs]
        exact hit

/-- Every state reached by complete iterations of a call keeps the stack
height within the capacity. -/
theorem reached_stack_top {k : Nat} {prior vm : VM α}
    (h : iterations ops bytecode k (entry ops prior) = some vm) :
    vm.stack_top ≤ STACK_MAX := by
  induction k generalizing vm with
  | zero =>
    simp only [iterations, Option.some.injEq] at h
    subst h
    exact Nat.zero_le _
  | succ k ih =>
    obtain ⟨v, hit, hst⟩ := iterations_succ_inv ops bytecode h
    obtain ⟨i, hip, _, _⟩ := reached_ip ops bytecode hit
    obtain ⟨b, _, _, _, _, htop⟩ := step_next_inv ops bytecode hip hst
    exact htop (ih hit)

/-- The state reached by `k` complete iterations of a call has its `ip` at the
`k`-th opcode position of the buffer. -/
theorem reached_opcode_position {k : Nat} {prior vm : VM α}
    (h : iterations ops bytecode k (entry ops prior) = some vm) :
    vm.ip = some (opcode_position bytecode k) := by
  induction k generalizing vm with
  | zero =>
    simp only [iterations, Option.some.injEq] at h
    subst h
    rfl
  | succ k ih =>
    obtain ⟨v, hit, hst⟩ := iterations_succ_inv ops bytecode h
    have hip := ih hit
    obtain ⟨b, hb, _, hip', _, _⟩ := step_next_inv ops bytecode hip hst
    rw [hip']
    simp only [opcode_position, next_opcode_position, hb, Option.some.injEq]
    by_cases h0 : b.val = 0
    · have : b = 0 := Fin.ext h0
      simp [h0, this]
    · have : b ≠ 0 := fun hb0 => h0 (by rw [hb0]; rfl)
      simp [h0, this]

/-- An iteration that stays within defined behaviour in a buffer does the same
in any extension of the buffer. -/
theorem step_append {p : List uint8_t} (s : List uint8_t) {vm : VM α} {f : Flow α}
    (h : step ops p vm = .ok f) : step ops (p ++ s) vm = .ok f := by
  cases hip : vm.ip with
  | none => simp [step, fetch, hip, bind, Except.bind] at h
  | some i =>
    cases hb : p[i]? with
    | none =>
      rw [step_past ops p hip (List.getElem?_eq_none_iff.1 hb)] at h
      simp at h
    | some b =>
      have hlt : i < p.length := (List.getElem?_eq_some_iff.1 hb).1
      have hb' : (p ++ s)[i]? = some b := by rw [List.getElem?_append_left hlt, hb]
      by_cases hop : 10 ≤ b.val
      · rw [step_unknown ops p hip hb hop] at h
        rw [step_unknown ops (p ++ s) hip hb' hop]
        exact h
      · have hlt10 : b.val < 10 := by omega
        interval_cases hv : b.val
        · cases hx : p[i + 1]? with
          | none =>
            rw [step_pushi_past ops p hip hb hv (List.getElem?_eq_none_iff.1 hx)] at h
            simp at h
          | some x =>
            have hlt2 : i + 1 < p.length := (List.getElem?_eq_some_iff.1 hx).1
            have hx' : (p ++ s)[i + 1]? = some x := by
              rw [List.getElem?_append_left hlt2, hx]
            simp only [step, fetch, hip, hb, hx, hv, bind, Except.bind] at h
            simp only [step, fetch, hip, hb', hx', hv, bind, Except.bind]
            exact h
        all_goals
          simp only [step, fetch, hip, hb, hv, bind, Except.bind] at h
          simp only [step, fetch, hip, hb', hv, bind, Except.bind]
          exact h

theorem iterations_append {p : List uint8_t} (s : List uint8_t) {k : Nat} {vm0 vm : VM α}
    (h : iterations ops p k vm0 = some vm) : iterations ops (p ++ s) k vm0 = some vm := by
  induction k generalizing vm0 with
  | zero => simpa [iterations] using h
  | succ k ih =>
    simp only [iterations] at h ⊢
    cases hs : step ops p vm0 with
    | error u => simp [hs] at h
    | ok f =>
      cases f with
      | ret r v => simp [hs] at h
      | next v =>
        simp only [hs] at h
        simp only [step_append ops s hs]
        exact ih h

/-- Complete iterations of a run of push-immediates that fits on the stack. -/
theorem iterations_pushes (t : List uint8_t) :
    ∀ (xs pre : List uint8_t) (vm : VM α),
      bytecode = pre ++ pushes xs ++ t → vm.ip = some pre.length →
      vm.stack_top + xs.length ≤ STACK_MAX →
      ∃ vm', iterations ops bytecode xs.length vm = some vm' ∧
        vm'.ip = some (pre.length + 2 * xs.length) ∧
        vm'.stack_top = vm.stack_top + xs.length ∧ vm'.result = vm.result := by
  intro xs
  induction xs with
  | nil =>
    intro pre vm _ hip _
    exact ⟨vm, rfl, by simpa using hip, rfl, rfl⟩
  | cons x xs ih =>
    intro pre vm hbc hip hroom
    simp only [List.length_cons] at hroom
    have hb : bytecode[pre.length]? = some 0 := by
      rw [hbc]
      simp only [pushes, List.append_assoc, List.cons_append]
      exact getElem?_append_cons pre _ 0
    have hx : bytecode[pre.length + 1]? = some x := by
      rw [hbc]
      simp only [pushes, List.append_assoc, List.cons_append]
      exact getElem?_append_cons_cons pre _ 0 x
    have hst := step_pushi ops bytecode hip hb rfl hx (by omega)
    obtain ⟨vm', hit, hip', htop', hres'⟩ := ih (pre ++ [0, x])
      { vm with ip := some (pre.length + 2),
                stack := write vm.stack vm.stack_top (ops.ofByte x),
                stack_top := vm.stack_top + 1 }
      (by simp [hbc, pushes]) (by simp) (by dsimp only; omega)
    refine ⟨vm', ?_, ?_, ?_, ?_⟩
    · simp only [List.length_cons, iterations, hst]
      exact hit
    · rw [hip']
      simp only [List.length_append, List.length_cons, List.length_nil]
      congr 1
      omega
    · rw [htop']
      dsimp only
      simp only [List.length_cons]
      omega
    · rw [hres']

theorem exactOps_exactSqrt : exactOps.ExactSqrt := by
  intro k hk
  have hval : ((k * k : uint8_t) : ℕ) = k.val * k.val := by
    rw [Fin.val_mul]
    exact Nat.mod_eq_of_lt (by nlinarith)
  have hs : Nat.sqrt (k.val * k.val) = k.val := Nat.sqrt_eq k.val
  have hn : (((k.val * k.val : ℕ) : ℚ).num).toNat = k.val * k.val := by
    rw [Rat.num_natCast]
    exact Int.toNat_natCast _
  have hd : ((k.val * k.val : ℕ) : ℚ).den = 1 := Rat.den_natCast _
  simp only [exactOps, hval, hn, hd, hs, Nat.sqrt_one]
  simp

theorem pushes_append (xs ys : List uint8_t) : pushes (xs ++ ys) = pushes xs ++ pushes ys := by
  induction xs with
  | nil => rfl
  | cons x xs ih => simp [pushes, ih]

/-- After as many push-immediates as the stack has cells the stack is full,
and one more push-immediate stores past its last cell. -/
theorem push_on_full_stack (prior : VM α) (xs t : List uint8_t) (x : uint8_t)
    (hxs : xs.length = STACK_MAX) :
    ∃ vm, iterations ops (pushes xs ++ 0 :: x :: t) STACK_MAX (entry ops prior) = some vm ∧
      vm.ip = some (2 * STACK_MAX) ∧ vm.stack_top = STACK_MAX ∧
      (pushes xs ++ 0 :: x :: t)[2 * STACK_MAX]? = some 0 ∧
      (pushes xs ++ 0 :: x :: t)[2 * STACK_MAX + 1]? = some x ∧
      step ops (pushes xs ++ 0 :: x :: t) vm = .error .write_past_stack := by
  obtain ⟨vm, hit, hip, htop, _⟩ := iterations_pushes ops (pushes xs ++ 0 :: x :: t)
    (0 :: x :: t) xs [] (entry ops prior) (by simp) rfl
    (by rw [hxs]; exact Nat.le_of_eq (Nat.zero_add _))
  rw [hxs] at hit
  have hip' : vm.ip = some (2 * STACK_MAX) := by rw [hip, hxs]; simp
  have htop' : vm.stack_top = STACK_MAX := by rw [htop, hxs]; exact Nat.zero_add _
  have hlen : (pushes xs).length = 2 * STACK_MAX := by rw [pushes_length, hxs]
  have hb : (pushes xs ++ 0 :: x :: t)[2 * STACK_MAX]? = some 0 := by
    rw [← hlen]; exact getElem?_append_cons _ _ 0
  have hx : (pushes xs ++ 0 :: x :: t)[2 * STACK_MAX + 1]? = some x := by
    rw [← hlen]; exact getElem?_append_cons_cons _ _ 0 x
  exact ⟨vm, hit, hip', htop', hb, hx,
    step_pushi_full ops _ hip' hb rfl hx (Nat.le_of_eq htop'.symm)⟩

theorem next_opcode_position_gt (i : Nat) : i < next_opcode_position bytecode i := by
  unfold next_opcode_position
  split_ifs <;> omega

theorem opcode_position_strictMono {j k : Nat} (h : j < k) :
    opcode_position bytecode j < opcode_position bytecode k := by
  induction k with
  | zero => omega
  | succ k ih =>
    have hstep : opcode_position bytecode k < opcode_position bytecode (k + 1) :=
      next_opcode_position_gt bytecode _
    rcases Nat.lt_succ_iff_lt_or_eq.1 h with hlt | heq
    · exact Nat.lt_trans (ih hlt) hstep
    · rw [heq]; exact hstep

theorem interpret_result_cases (r : interpret_result) :
    r = .SUCCESS ∨ r = .ERROR_DIVISION_BY_ZERO ∨ r = .ERROR_UNKNOWN_OPCODE := by
  cases r
  · exact Or.inl rfl
  · exact Or.inr (Or.inl rfl)
  · exact Or.inr (Or.inr rfl)

/-- A pop-to-result that completes has written the topmost value of the stack
to the result register. -/
theorem step_pop_res_result {vm vm' : VM α} {i : Nat} {b : uint8_t} (hip : vm.ip = some i)
    (hb : bytecode[i]? = some b) (hop : b.val = 8)
    (h : step ops bytecode vm = .ok (.next vm')) :
    (live vm).head? = some vm'.result := by
  cases htop : vm.stack_top with
  | zero =>
    rw [step_pop_empty ops bytecode hip hb ⟨by omega, by omega⟩ htop] at h
    simp at h
  | succ n =>
    rw [step_pop_res ops bytecode hip hb hop htop] at h
    simp only [Except.ok.injEq, Flow.next.injEq] at h
    subst h
    simp [live, htop, cells]

/-- In every state reached by complete iterations of a call the result
register holds the value popped by the last pop-to-result executed so far, or
its cleared value when none was executed. -/
theorem reached_result {k : Nat} {prior vm : VM α}
    (h : iterations ops bytecode k (entry ops prior) = some vm) :
    vm.result = (last_popped ops bytecode (entry ops prior) k).getD ops.zero := by
  induction k generalizing vm with
  | zero =>
    simp only [iterations, Option.some.injEq] at h
    subst h
    rfl
  | succ k ih =>
    obtain ⟨v, hit, hst⟩ := iterations_succ_inv ops bytecode h
    obtain ⟨i, hip, _, _⟩ := reached_ip ops bytecode hit
    obtain ⟨b, hb, _, _, hres, _⟩ := step_next_inv ops bytecode hip hst
    have hat : opcode_at bytecode v = some b := by simp [opcode_at, hip, hb]
    simp only [last_popped, hit, hat, Option.some.injEq]
    by_cases h8 : b.val = 8
    · have hb8 : b = 8 := Fin.ext h8
      rw [if_pos hb8, step_pop_res_result ops bytecode hip hb h8 hst]
      rfl
    · have hb8 : ¬ b = 8 := fun hb8 => h8 (by rw [hb8]; rfl)
      rw [if_neg hb8, hres h8]
      exact ih hit

end Reached

/-! ## The claims -/

section Claims

variable {α : Type}

/-- C1. Postfix evaluation is correct: for every expression `e` over byte
literals in which no division has a divisor comparing equal to zero and which
needs at most `STACK_MAX` stack slots, `vm_interpret` on `code(e) ++ [8, 9]`
returns `SUCCESS` and leaves the value of `e` in the result register. -/
theorem postfix_evaluation_correct (ops : DoubleOps α) (prior : VM α) (e : Expr)
    (hsafe : e.DivSafe ops) (hslots : e.slots ≤ STACK_MAX) :
    (vm_interpret ops prior (e.code ++ [8, 9])).status = some .SUCCESS ∧
    (vm_interpret ops prior (e.code ++ [8, 9])).result = some (e.value ops) := by
  have href : reference ops (e.code ++ [8, 9]) [] none = some (some (e.value ops)) := by
    rw [reference_code ops e [8, 9] [] none (by simp) hsafe (by simpa using hslots)]
    simp [reference, reference_op, Fin.coe_ofNat_eq_mod]
  obtain ⟨vm', hrun, hres⟩ := vm_interpret_refines_reference ops prior _ _ href
  rw [hrun]
  exact ⟨rfl, by simp [Outcome.result, hres]⟩

/-- C1, witness: `2 * (11 + 3)`, encoded `[0,2, 0,11, 0,3, 1, 4, 8, 9]`, gives
28 in exact arithmetic. -/
theorem postfix_evaluation_correct_witness :
    (Expr.mul (.lit 2) (.add (.lit 11) (.lit 3))).code ++ [8, 9]
        = [0, 2, 0, 11, 0, 3, 1, 4, 8, 9] ∧
      (Expr.mul (.lit 2) (.add (.lit 11) (.lit 3))).value exactOps = 28 ∧
      (vm_interpret exactOps blank [0, 2, 0, 11, 0, 3, 1, 4, 8, 9]).status = some .SUCCESS ∧
      (vm_interpret exactOps blank [0, 2, 0, 11, 0, 3, 1, 4, 8, 9]).result = some 28 := by
  have hv : (Expr.mul (.lit 2) (.add (.lit 11) (.lit 3))).value exactOps = 28 := by
    simp [Expr.value, exactOps, Fin.coe_ofNat_eq_mod]
    norm_num
  have h := postfix_evaluation_correct exactOps blank
    (Expr.mul (.lit 2) (.add (.lit 11) (.lit 3)))
    (by simp [Expr.DivSafe]) (by simp [Expr.slots, STACK_MAX])
  rw [hv] at h
  exact ⟨rfl, hv, h⟩

/-- C2. A valid program ending in halt with a balanced stack (the reference
semantics accepts it: every instruction finds the operands it pops, no divisor
is zero, the stack never holds more than `STACK_MAX` values and halt is
reached inside the buffer) makes `vm_interpret` return `SUCCESS`, and the
result register holds the value popped by the last pop-to-result executed
before halt (the cleared value `0.0` when the program executed none). -/
theorem valid_program_returns_last_popped (ops : DoubleOps α) (prior : VM α)
    (bytecode : List uint8_t) (last : Option α)
    (hvalid : reference ops bytecode [] none = some last) :
    (vm_interpret ops prior bytecode).status = some .SUCCESS ∧
    (vm_interpret ops prior bytecode).result = some (last.getD ops.zero) := by
  obtain ⟨vm', hrun, hres⟩ := vm_interpret_refines_reference ops prior _ _ hvalid
  rw [hrun]
  exact ⟨rfl, by simp [Outcome.result, hres]⟩

/-- C2, witness: the test program "sum all", `2 + (3 + 5)`, is valid and
returns `SUCCESS` with result 10. -/
theorem valid_program_returns_last_popped_witness :
    reference exactOps [0, 2, 0, 3, 0, 5, 1, 1, 8, 9] [] none = some (some 10) ∧
      (vm_interpret exactOps blank [0, 2, 0, 3, 0, 5, 1, 1, 8, 9]).status = some .SUCCESS ∧
      (vm_interpret exactOps blank [0, 2, 0, 3, 0, 5, 1, 1, 8, 9]).result = some 10 := by
  have hv : reference exactOps [0, 2, 0, 3, 0, 5, 1, 1, 8, 9] [] none = some (some 10) := by
    simp [reference, reference_op, STACK_MAX, exactOps, Fin.coe_ofNat_eq_mod]
    norm_num
  exact ⟨hv, valid_program_returns_last_popped exactOps blank _ (some 10) hv⟩

/-- C3. Push / pop-to-result round trip: for every operand byte `x`,
`vm_interpret` on `[0, x, 8, 9]` returns `SUCCESS` and the result register is
exactly `x` (converted to `double`); the operand byte is never read as an
opcode. -/
theorem push_pop_round_trip (ops : DoubleOps α) (prior : VM α) (x : uint8_t) :
    (vm_interpret ops prior [0, x, 8, 9]).status = some .SUCCESS ∧
    (vm_interpret ops prior [0, x, 8, 9]).result = some (ops.ofByte x) :=
  ⟨rfl, rfl⟩

/-- C4. Binary operand order: `[0,a, 0,b, 2, 8, 9]` returns `SUCCESS` with
result `a - b`, and for `b` non-zero `[0,a, 0,b, 3, 8, 9]` returns `SUCCESS`
with result `a / b`: the value pushed first is the left operand. -/
theorem binary_operand_order (ops : DoubleOps α) (prior : VM α) (a b : uint8_t) :
    ((vm_interpret ops prior [0, a, 0, b, 2, 8, 9]).status = some .SUCCESS ∧
      (vm_interpret ops prior [0, a, 0, b, 2, 8, 9]).result
        = some (ops.sub (ops.ofByte a) (ops.ofByte b))) ∧
    (ops.ExactZero → b ≠ 0 →
      (vm_interpret ops prior [0, a, 0, b, 3, 8, 9]).status = some .SUCCESS ∧
      (vm_interpret ops prior [0, a, 0, b, 3, 8, 9]).result
        = some (ops.div (ops.ofByte a) (ops.ofByte b))) := by
  refine ⟨⟨rfl, rfl⟩, ?_⟩
  intro hz hb
  have hzb : ops.eqZero (ops.ofByte b) = false := by rw [hz b]; simpa using hb
  constructor <;>
    simp [vm_interpret, vm_interpret_loop, step, fetch, vm_stack_pop, vm_stack_push, vm_reset,
      Outcome.result, Outcome.status, bind, Except.bind, pure, Except.pure, write, STACK_MAX, hzb]

/-- C4, witness: `10 - 6 = 4` (not `6 - 10`) and `10 / 5 = 2` (not `5 / 10`)
in exact arithmetic. -/
theorem binary_operand_order_witness :
    ((vm_interpret exactOps blank [0, 10, 0, 6, 2, 8, 9]).result = some 4 ∧
      (4 : ℚ) ≠ 6 - 10) ∧
    ((vm_interpret exactOps blank [0, 10, 0, 5, 3, 8, 9]).status = some .SUCCESS ∧
      (vm_interpret exactOps blank [0, 10, 0, 5, 3, 8, 9]).result = some 2 ∧
      (2 : ℚ) ≠ 5 / 10) := by
  have h := binary_operand_order exactOps blank 10 6
  have h' := (binary_operand_order exactOps blank 10 5).2 exactOps_exactZero (by decide)
  have e1 : exactOps.sub (exactOps.ofByte 10) (exactOps.ofByte 6) = 4 := by
    simp [exactOps, Fin.coe_ofNat_eq_mod]; norm_num
  have e2 : exactOps.div (exactOps.ofByte 10) (exactOps.ofByte 5) = 2 := by
    simp [exactOps, Fin.coe_ofNat_eq_mod]; norm_num
  rw [e1] at h
  rw [e2] at h'
  exact ⟨⟨h.1.2, by norm_num⟩, h'.1, h'.2, by norm_num⟩

/-- C5. Division by zero: `[0,a, 0,0, 3] ++ t` returns
`ERROR_DIVISION_BY_ZERO` whatever the bytes `t`.  The failing divide pops the
divisor only: the state left behind is the state in which the divide was
fetched (second component) with `ip` past the opcode and the divisor popped;
the result register is unchanged (still cleared), nothing is pushed, and no
instruction of `t` runs. -/
theorem division_by_zero_returns_error (ops : DoubleOps α) (prior : VM α) (a : uint8_t)
    (t : List uint8_t) (hz : ops.ExactZero) :
    vm_interpret ops prior ([0, a, 0, 0, 3] ++ t) =
      .returned .ERROR_DIVISION_BY_ZERO
        { ip := some 5,
          stack := write (write (fun _ => ops.zero) 0 (ops.ofByte a)) 1 (ops.ofByte 0),
          stack_top := 1, result := ops.zero } ∧
    iterations ops ([0, a, 0, 0, 3] ++ t) 2 (entry ops prior) =
      some { ip := some 4,
             stack := write (write (fun _ => ops.zero) 0 (ops.ofByte a)) 1 (ops.ofByte 0),
             stack_top := 2, result := ops.zero } := by
  have hit : iterations ops ([0, a, 0, 0, 3] ++ t) 2 (entry ops prior) =
      some { ip := some 4,
             stack := write (write (fun _ => ops.zero) 0 (ops.ofByte a)) 1 (ops.ofByte 0),
             stack_top := 2, result := ops.zero } := by
    simp [iterations, step, fetch, entry, vm_reset, vm_stack_push, bind, Except.bind, pure,
      Except.pure, STACK_MAX]
  refine ⟨?_, hit⟩
  rw [vm_interpret_returned_iff]
  refine ⟨2, _, hit, ?_⟩
  have h0 : ops.eqZero (ops.ofByte 0) = true := by rw [hz 0]; rfl
  exact step_div_zero ops _ (i := 4) (n := 1) (b := 3) rfl (by simp) rfl rfl
    (by simpa [write] using h0)

/-- C5, witness: the test "Division with error", `10 / 0`. -/
theorem division_by_zero_returns_error_witness :
    (vm_interpret exactOps blank [0, 10, 0, 0, 3, 8, 9]).status
        = some .ERROR_DIVISION_BY_ZERO ∧
      (vm_interpret exactOps blank [0, 10, 0, 0, 3, 8, 9]).result = some 0 := by
  have h := (division_by_zero_returns_error exactOps blank 10 [8, 9] exactOps_exactZero).1
  simp only [List.cons_append, List.nil_append] at h
  rw [h]
  exact ⟨rfl, rfl⟩

/-- C6. Unknown opcode: `vm_interpret` returns `ERROR_UNKNOWN_OPCODE` exactly
when the run reaches an opcode position holding a byte outside `0..9`. -/
theorem unknown_opcode_iff (ops : DoubleOps α) (prior : VM α) (bytecode : List uint8_t) :
    (vm_interpret ops prior bytecode).status = some .ERROR_UNKNOWN_OPCODE ↔
      ∃ k vm i b, iterations ops bytecode k (entry ops prior) = some vm ∧
        vm.ip = some i ∧ bytecode[i]? = some b ∧ 10 ≤ b.val := by
  constructor
  · intro h
    cases hrun : vm_interpret ops prior bytecode with
    | undefined u => simp [hrun, Outcome.status] at h
    | out_of_fuel => simp [hrun, Outcome.status] at h
    | returned r vm' =>
      simp only [hrun, Outcome.status, Option.some.injEq] at h
      subst h
      obtain ⟨k, vm, hit, hst⟩ := (vm_interpret_returned_iff ops bytecode prior vm' _).1 hrun
      obtain ⟨i, hip, _, _⟩ := reached_ip ops bytecode hit
      obtain ⟨b, hb, _, _, _, hcase⟩ := step_ret_inv ops bytecode hip hst
      rcases hcase with ⟨hr, _⟩ | ⟨_, hop, _⟩ | ⟨hr, _⟩
      · exact absurd hr (by decide)
      · exact ⟨k, vm, i, b, hit, hip, hb, hop⟩
      · exact absurd hr (by decide)
  · rintro ⟨k, vm, i, b, hit, hip, hb, hop⟩
    have hrun := (vm_interpret_returned_iff ops bytecode prior _ _).2
      ⟨k, vm, hit, step_unknown ops bytecode hip hb hop⟩
    rw [hrun]
    rfl

/-- C7, counterexample: 257 push-immediates are not answered by a
stack-overflow error, the 257th push is executed and stores its value past the
last stack cell; and a pop-to-result on an empty stack is not answered by a
stack-underflow error, the pop is executed and moves `stack_top` below the
first cell. -/
theorem stack_errors_signalled_counterexample :
    vm_interpret exactOps blank (pushes (List.replicate 257 1)) = .undefined .write_past_stack ∧
    vm_interpret exactOps blank [8] = .undefined .pop_below_stack := by
  refine ⟨?_, rfl⟩
  have h := vm_interpret_pushes_past_stack exactOps blank (List.replicate 257 1) []
    (by rw [List.length_replicate]; decide)
  rw [List.append_nil] at h
  exact h

/-- C7, as amended.  Stack errors are not signalled: `interpret_result` has no
stack-overflow or stack-underflow value and the stack accesses are not
guarded.  A program that starts with more than `STACK_MAX` push-immediates
(257 of them, no pops) executes the push for which the stack has no room and
stores past the last stack cell; a run that comes to a popping instruction
(opcodes 1 to 8: a binary op, a unary op or pop-to-result) with an empty stack
executes the pop and moves `stack_top` below the first cell.  Both accesses
are outside the stack, where C defines no behaviour. -/
theorem stack_bounds_not_guarded (ops : DoubleOps α) (prior : VM α) :
    (∀ r : interpret_result,
      r = .SUCCESS ∨ r = .ERROR_DIVISION_BY_ZERO ∨ r = .ERROR_UNKNOWN_OPCODE) ∧
    (∀ xs t : List uint8_t, STACK_MAX < xs.length →
      vm_interpret ops prior (pushes xs ++ t) = .undefined .write_past_stack) ∧
    (∀ (bytecode : List uint8_t) (k : Nat) (vm : VM α) (i : Nat) (b : uint8_t),
      iterations ops bytecode k (entry ops prior) = some vm → vm.ip = some i →
      bytecode[i]? = some b → 1 ≤ b.val → b.val ≤ 8 → vm.stack_top = 0 →
      step ops bytecode vm = .error .pop_below_stack ∧
      vm_interpret ops prior bytecode = .undefined .pop_below_stack) := by
  refine ⟨interpret_result_cases, fun xs t h => vm_interpret_pushes_past_stack ops prior xs t h,
    ?_⟩
  intro bytecode k vm i b hit hip hb h1 h8 htop
  have hst := step_pop_empty ops bytecode hip hb ⟨h1, h8⟩ htop
  exact ⟨hst, (vm_interpret_undefined_iff ops bytecode prior _).2 ⟨k, vm, hit, hst⟩⟩

/-- C7, witness: 257 pushes of the byte 1; and `[0,5, 8, 1, 9]`, whose add
comes with the stack empty after one push and one pop-to-result. -/
theorem stack_bounds_not_guarded_witness :
    vm_interpret exactOps blank (pushes (List.replicate 257 1) ++ [8, 9])
        = .undefined .write_past_stack ∧
      step exactOps [0, 5, 8, 1, 9]
          { ip := some 3, stack := write (fun _ => 0) 0 (exactOps.ofByte 5), stack_top := 0,
            result := exactOps.ofByte 5 } = .error .pop_below_stack ∧
      vm_interpret exactOps blank [0, 5, 8, 1, 9] = .undefined .pop_below_stack :=
  ⟨(stack_bounds_not_guarded exactOps blank).2.1 (List.replicate 257 1) [8, 9]
      (by rw [List.length_replicate]; decide),
   (stack_bounds_not_guarded exactOps blank).2.2 [0, 5, 8, 1, 9] 2
      { ip := some 3, stack := write (fun _ => 0) 0 (exactOps.ofByte 5), stack_top := 0,
        result := exactOps.ofByte 5 } 3 1 rfl rfl rfl (by decide) (by decide) rfl⟩

/-- C8, counterexample: on the buffer `[0]` (push-immediate with no operand
byte) and on the buffer `[0, 5, 8]` (no halt) the run does not fail with a
truncated-program error; it reads the byte after the buffer's last one. -/
theorem truncated_program_rejected_counterexample :
    vm_interpret exactOps blank [0] = .undefined .read_past_bytecode ∧
    vm_interpret exactOps blank [0, 5, 8] = .undefined .read_past_bytecode :=
  ⟨rfl, rfl⟩

/-- C8, as amended.  Truncated programs are not rejected: `interpret_result`
has no truncated-program value and no fetch is checked against the end of the
buffer.  In any machine state, the iteration reads outside the buffer exactly
when it attempts a fetch at a position past the buffer's last byte: the opcode
fetch with `ip` at or past the end (a buffer with no halt), or the operand
fetch of a push-immediate that is the buffer's last byte (e.g. `[0]`).  The
fetch is performed, where C defines no behaviour; so a run that comes to such
a fetch reads outside the buffer. -/
theorem truncated_program_reads_past_buffer (ops : DoubleOps α) (prior : VM α)
    (bytecode : List uint8_t) :
    (∀ r : interpret_result,
      r = .SUCCESS ∨ r = .ERROR_DIVISION_BY_ZERO ∨ r = .ERROR_UNKNOWN_OPCODE) ∧
    (∀ (vm : VM α) (i : Nat), vm.ip = some i →
      (step ops bytecode vm = .error .read_past_bytecode ↔
        (bytecode.length ≤ i ∨
          (∃ b, bytecode[i]? = some b ∧ b.val = 0 ∧ bytecode.length ≤ i + 1)))) ∧
    (∀ (k : Nat) (vm : VM α) (i : Nat),
      iterations ops bytecode k (entry ops prior) = some vm → vm.ip = some i →
      (bytecode.length ≤ i ∨
        (∃ b, bytecode[i]? = some b ∧ b.val = 0 ∧ bytecode.length ≤ i + 1)) →
      vm_interpret ops prior bytecode = .undefined .read_past_bytecode) := by
  have hstep : ∀ (vm : VM α) (i : Nat), vm.ip = some i →
      (bytecode.length ≤ i ∨
        (∃ b, bytecode[i]? = some b ∧ b.val = 0 ∧ bytecode.length ≤ i + 1)) →
      step ops bytecode vm = .error .read_past_bytecode := by
    rintro vm i hip (hpast | ⟨b, hb, hop, hpast⟩)
    · exact step_past ops bytecode hip hpast
    · exact step_pushi_past ops bytecode hip hb hop hpast
  refine ⟨interpret_result_cases, ?_, ?_⟩
  · intro vm i hip
    constructor
    · intro hst
      rcases step_error_inv ops bytecode hip hst with ⟨_, h⟩ | ⟨hu, _⟩ | ⟨hu, _⟩
      · exact h
      · exact absurd hu (by decide)
      · exact absurd hu (by decide)
    · exact hstep vm i hip
  · intro k vm i hit hip hpast
    exact (vm_interpret_undefined_iff ops bytecode prior _).2
      ⟨k, vm, hit, hstep vm i hip hpast⟩

/-- C8, witness: the buffer `[0]`, whose push-immediate has no operand byte,
and the buffer `[0, 5, 8]`, whose run comes to position 3 without a halt. -/
theorem truncated_program_reads_past_buffer_witness :
    vm_interpret exactOps blank [0] = .undefined .read_past_bytecode ∧
    vm_interpret exactOps blank [0, 5, 8] = .undefined .read_past_bytecode :=
  ⟨(truncated_program_reads_past_buffer exactOps blank [0]).2.2 0 (entry exactOps blank) 0
      rfl rfl (Or.inr ⟨0, rfl, rfl, Nat.le_refl _⟩),
   (truncated_program_reads_past_buffer exactOps blank [0, 5, 8]).2.2 2
      { ip := some 3, stack := write (fun _ => 0) 0 (exactOps.ofByte 5), stack_top := 0,
        result := exactOps.ofByte 5 } 3 rfl rfl (Or.inl (Nat.le_refl _))⟩

/-- C9, counterexample: on `[0,5, 8, 0,1, 0,0, 3, 9]` the run returns
`ERROR_DIVISION_BY_ZERO` and the result register holds 5, the value written by
the pop-to-result executed before the failing divide, not its cleared
value. -/
theorem error_clears_result_counterexample :
    (vm_interpret exactOps blank [0, 5, 8, 0, 1, 0, 0, 3, 9]).status
        = some .ERROR_DIVISION_BY_ZERO ∧
      (vm_interpret exactOps blank [0, 5, 8, 0, 1, 0, 0, 3, 9]).result = some 5 ∧
      (5 : ℚ) ≠ exactOps.zero := by
  refine ⟨?_, ?_, ?_⟩
  · simp [vm_interpret, vm_interpret_loop, step, fetch, vm_stack_pop, vm_stack_push, vm_reset,
      Outcome.status, exactOps, bind, Except.bind, pure, Except.pure, write, STACK_MAX,
      Fin.coe_ofNat_eq_mod]
  · simp [vm_interpret, vm_interpret_loop, step, fetch, vm_stack_pop, vm_stack_push, vm_reset,
      Outcome.result, exactOps, bind, Except.bind, pure, Except.pure, write, STACK_MAX,
      Fin.coe_ofNat_eq_mod]
  · simp [exactOps]

/-- C9, as amended.  Every error aborts the run immediately, but a partial
result is kept.  When `vm_interpret` returns an error (division by zero or
unknown opcode), the `return` happens in the iteration that fetched the
failing instruction, an unknown byte or a divide with a zero divisor on top of
the stack, so no later instruction is executed (`ip` stands just past the
failing opcode), and that iteration writes neither the result register nor a
stack cell.  The result register is not cleared: it holds the value popped by
the last pop-to-result executed before the failure, and its cleared value if
none was executed.  Conversely a run that comes to an unknown byte, or to a
divide with a zero on top of the stack, returns the error there. -/
theorem error_aborts_immediately (ops : DoubleOps α) (prior : VM α)
    (bytecode : List uint8_t) :
    (∀ (r : interpret_result) (vm' : VM α),
      vm_interpret ops prior bytecode = .returned r vm' → r ≠ .SUCCESS →
      ∃ k vm i b, iterations ops bytecode k (entry ops prior) = some vm ∧ vm.ip = some i ∧
        bytecode[i]? = some b ∧ step ops bytecode vm = .ok (.ret r vm') ∧
        vm'.ip = some (i + 1) ∧ vm'.result = vm.result ∧ vm'.stack = vm.stack ∧
        vm'.result = (last_popped ops bytecode (entry ops prior) k).getD ops.zero ∧
        ((r = .ERROR_UNKNOWN_OPCODE ∧ 10 ≤ b.val ∧ vm'.stack_top = vm.stack_top) ∨
         (r = .ERROR_DIVISION_BY_ZERO ∧ b.val = 3 ∧ vm.stack_top = vm'.stack_top + 1 ∧
            ops.eqZero (vm.stack vm'.stack_top) = true))) ∧
    (∀ (k : Nat) (vm : VM α) (i : Nat) (b : uint8_t),
      iterations ops bytecode k (entry ops prior) = some vm → vm.ip = some i →
      bytecode[i]? = some b →
      (10 ≤ b.val →
        vm_interpret ops prior bytecode =
          .returned .ERROR_UNKNOWN_OPCODE { vm with ip := some (i + 1) }) ∧
      (b.val = 3 → ∀ n, vm.stack_top = n + 1 → ops.eqZero (vm.stack n) = true →
        vm_interpret ops prior bytecode =
          .returned .ERROR_DIVISION_BY_ZERO { vm with ip := some (i + 1), stack_top := n }) ∧
      vm.result = (last_popped ops bytecode (entry ops prior) k).getD ops.zero) := by
  constructor
  · intro r vm' hrun herr
    obtain ⟨k, vm, hit, hst⟩ := (vm_interpret_returned_iff ops bytecode prior vm' r).1 hrun
    obtain ⟨i, hip, _, _⟩ := reached_ip ops bytecode hit
    obtain ⟨b, hb, hip', hres, hstack, hcase⟩ := step_ret_inv ops bytecode hip hst
    refine ⟨k, vm, i, b, hit, hip, hb, hst, hip', hres, hstack, ?_, ?_⟩
    · rw [hres]
      exact reached_result ops bytecode hit
    · rcases hcase with ⟨hr, _⟩ | h | h
      · exact absurd hr herr
      · exact Or.inl h
      · exact Or.inr h
  · intro k vm i b hit hip hb
    refine ⟨?_, ?_, reached_result ops bytecode hit⟩
    · intro hop
      exact (vm_interpret_returned_iff ops bytecode prior _ _).2
        ⟨k, vm, hit, step_unknown ops bytecode hip hb hop⟩
    · intro hop n htop hz
      exact (vm_interpret_returned_iff ops bytecode prior _ _).2
        ⟨k, vm, hit, step_div_zero ops bytecode hip hb hop htop hz⟩

/-- C9, witness: on `[0,5, 8, 0,1, 0,0, 3, 9]` the run returns
`ERROR_DIVISION_BY_ZERO` from the iteration that fetched the divide, and the
result register holds 5, the value popped by the pop-to-result executed
before. -/
theorem error_aborts_immediately_witness :
    ∃ vm', vm_interpret exactOps blank [0, 5, 8, 0, 1, 0, 0, 3, 9]
        = .returned .ERROR_DIVISION_BY_ZERO vm' ∧ vm'.result = 5 ∧
      ∃ k vm i, iterations exactOps [0, 5, 8, 0, 1, 0, 0, 3, 9] k (entry exactOps blank)
          = some vm ∧ vm.ip = some i ∧ vm'.ip = some (i + 1) ∧ vm'.result = vm.result ∧
        vm'.result = (last_popped exactOps [0, 5, 8, 0, 1, 0, 0, 3, 9]
          (entry exactOps blank) k).getD exactOps.zero := by
  have hs : (vm_interpret exactOps blank [0, 5, 8, 0, 1, 0, 0, 3, 9]).status
      = some .ERROR_DIVISION_BY_ZERO := by
    simp [vm_interpret, vm_interpret_loop, step, fetch, vm_stack_pop, vm_stack_push, vm_reset,
      Outcome.status, exactOps, bind, Except.bind, pure, Except.pure, write, STACK_MAX,
      Fin.coe_ofNat_eq_mod]
  have hr : (vm_interpret exactOps blank [0, 5, 8, 0, 1, 0, 0, 3, 9]).result = some 5 := by
    simp [vm_interpret, vm_interpret_loop, step, fetch, vm_stack_pop, vm_stack_push, vm_reset,
      Outcome.result, exactOps, bind, Except.bind, pure, Except.pure, write, STACK_MAX,
      Fin.coe_ofNat_eq_mod]
  obtain ⟨vm', hrun⟩ := (status_eq_some_iff _ _).1 hs
  rw [hrun] at hr
  simp only [Outcome.result, Option.some.injEq] at hr
  obtain ⟨k, vm, i, b, hit, hip, _, _, hip', hres, _, hlast, _⟩ :=
    (error_aborts_immediately exactOps blank _).1 _ vm' hrun (by decide)
  exact ⟨vm', hrun, hr, k, vm, i, hit, hip, hip', hres, hlast⟩

/-- C10. No state leaks between runs: whatever the previous contents of the
global `vm`, `vm_interpret` has the same outcome and leaves the same machine
state, result register included; and a program that halts without executing
pop-to-result, `[9]`, leaves the result register cleared. -/
theorem no_state_leaks_between_runs (ops : DoubleOps α) (prior prior' : VM α)
    (bytecode : List uint8_t) :
    vm_interpret ops prior bytecode = vm_interpret ops prior' bytecode ∧
    (vm_interpret ops prior [9]).status = some .SUCCESS ∧
    (vm_interpret ops prior [9]).result = some ops.zero :=
  ⟨rfl, rfl, rfl⟩

end Claims

/-! ## The claims, continued -/

section MoreClaims

variable {α : Type}

/-- C11, counterexample: the loop is not bounded by the length of the buffer.
On `[0,5, 8]` (no halt) two iterations complete, `ip` stands at the end of the
buffer, and the loop goes on: a third iteration is started, whose fetch reads
past the last byte.  On the empty buffer, of length 0, an iteration is started
all the same. -/
theorem terminates_on_any_buffer_counterexample :
    (∃ vm, iterations exactOps [0, 5, 8] 2 (entry exactOps blank) = some vm ∧
      vm.ip = some 3 ∧ step exactOps [0, 5, 8] vm = .error .read_past_bytecode) ∧
    vm_interpret exactOps blank [0, 5, 8] = .undefined .read_past_bytecode ∧
    step exactOps [] (entry exactOps blank) = .error .read_past_bytecode ∧
    vm_interpret exactOps blank [] = .undefined .read_past_bytecode :=
  ⟨⟨_, rfl, rfl, rfl⟩, rfl, rfl, rfl⟩

/-- C11, as amended.  The buffer bounds the loop only while `ip` is inside it.
For any finite bytecode buffer, every iteration that completes advances `ip`
by at least 1, never backwards and never past the end of the buffer, so at
most `length` iterations complete, and a call that returns (within defined
behaviour) does so in at most `length` iterations; a run that comes to a halt
or to an unknown byte inside the buffer returns there.  The loop does not stop
at the end of the buffer: a run that comes there without having returned starts
a further iteration, whose fetch reads past the buffer, where C defines no
behaviour.  Every run either returns or comes to such an operation (a fetch
past the buffer, a store past the stack, a pop below it). -/
theorem run_bounded_inside_buffer (ops : DoubleOps α) (prior : VM α)
    (bytecode : List uint8_t) :
    (∀ k vm vm', iterations ops bytecode k (entry ops prior) = some vm →
      step ops bytecode vm = .ok (.next vm') →
      ∃ i i', vm.ip = some i ∧ vm'.ip = some i' ∧ i < i' ∧ i' ≤ bytecode.length) ∧
    (∀ k vm, iterations ops bytecode k (entry ops prior) = some vm → k ≤ bytecode.length) ∧
    (∀ r vm', vm_interpret ops prior bytecode = .returned r vm' →
      ∃ k vm, k + 1 ≤ bytecode.length ∧
        iterations ops bytecode k (entry ops prior) = some vm ∧
        step ops bytecode vm = .ok (.ret r vm')) ∧
    (∀ k vm i b, iterations ops bytecode k (entry ops prior) = some vm → vm.ip = some i →
      bytecode[i]? = some b → 9 ≤ b.val →
      k + 1 ≤ bytecode.length ∧ ∃ r vm', vm_interpret ops prior bytecode = .returned r vm') ∧
    (∀ k vm, iterations ops bytecode k (entry ops prior) = some vm →
      vm.ip = some bytecode.length →
      step ops bytecode vm = .error .read_past_bytecode ∧
      vm_interpret ops prior bytecode = .undefined .read_past_bytecode) ∧
    ((∃ r vm', vm_interpret ops prior bytecode = .returned r vm') ∨
      vm_interpret ops prior bytecode = .undefined .read_past_bytecode ∨
      vm_interpret ops prior bytecode = .undefined .write_past_stack ∨
      vm_interpret ops prior bytecode = .undefined .pop_below_stack) := by
  refine ⟨?_, ?_, ?_, ?_, ?_, ?_⟩
  · intro k vm vm' hit hst
    obtain ⟨i, hip, _, _⟩ := reached_ip ops bytecode hit
    obtain ⟨i', hip', hlt, hle⟩ := step_next_ip ops bytecode hip hst
    exact ⟨i, i', hip, hip', hlt, hle⟩
  · intro k vm hit
    obtain ⟨i, _, hk, hle⟩ := reached_ip ops bytecode hit
    omega
  · intro r vm' hrun
    obtain ⟨k, vm, hit, hst⟩ := (vm_interpret_returned_iff ops bytecode prior vm' r).1 hrun
    obtain ⟨i, hip, hk, _⟩ := reached_ip ops bytecode hit
    obtain ⟨b, hb, _⟩ := step_ret_inv ops bytecode hip hst
    have hlt : i < bytecode.length := (List.getElem?_eq_some_iff.1 hb).1
    exact ⟨k, vm, by omega, hit, hst⟩
  · intro k vm i b hit hip hb hop
    obtain ⟨i', hip', hk, _⟩ := reached_ip ops bytecode hit
    have hii : i' = i := by rw [hip] at hip'; exact (Option.some.inj hip').symm
    have hlt : i < bytecode.length := (List.getElem?_eq_some_iff.1 hb).1
    refine ⟨by omega, ?_⟩
    rcases Nat.eq_or_lt_of_le hop with h9 | h10
    · exact ⟨_, _, (vm_interpret_returned_iff ops bytecode prior _ _).2
        ⟨k, vm, hit, step_done ops bytecode hip hb h9.symm⟩⟩
    · exact ⟨_, _, (vm_interpret_returned_iff ops bytecode prior _ _).2
        ⟨k, vm, hit, step_unknown ops bytecode hip hb h10⟩⟩
  · intro k vm hit hip
    have hst := step_past ops bytecode hip (Nat.le_refl _)
    exact ⟨hst, (vm_interpret_undefined_iff ops bytecode prior _).2 ⟨k, vm, hit, hst⟩⟩
  · cases hrun : vm_interpret ops prior bytecode with
    | returned r vm' => exact Or.inl ⟨r, vm', rfl⟩
    | out_of_fuel =>
      exact absurd hrun (vm_interpret_loop_fuel ops bytecode _ (entry_ip ops prior)
        (Nat.zero_le _) (by omega))
    | undefined u =>
      obtain ⟨k, vm, hit, hst⟩ := (vm_interpret_undefined_iff ops bytecode prior u).1 hrun
      obtain ⟨i, hip, _, _⟩ := reached_ip ops bytecode hit
      rcases step_error_inv ops bytecode hip hst with ⟨hu, _⟩ | ⟨hu, _⟩ | ⟨hu, _⟩
      · exact Or.inr (Or.inl (by rw [hu]))
      · exact Or.inr (Or.inr (Or.inl (by rw [hu])))
      · exact Or.inr (Or.inr (Or.inr (by rw [hu])))

/-- C11, witness: the test program `[0,5, 8, 9]` returns in its third
iteration, within the 4 bytes of the buffer; the run of `[0,5, 8]` comes to
the end of the buffer after two iterations and fetches past it. -/
theorem run_bounded_inside_buffer_witness :
    (∃ k vm, k + 1 ≤ [(0 : uint8_t), 5, 8, 9].length ∧
      iterations exactOps [0, 5, 8, 9] k (entry exactOps blank) = some vm ∧
      step exactOps [0, 5, 8, 9] vm = .ok (.ret .SUCCESS
        { ip := some 4, stack := write (fun _ => 0) 0 (exactOps.ofByte 5), stack_top := 0,
          result := exactOps.ofByte 5 })) ∧
    (step exactOps [0, 5, 8]
        { ip := some 3, stack := write (fun _ => 0) 0 (exactOps.ofByte 5), stack_top := 0,
          result := exactOps.ofByte 5 } = .error .read_past_bytecode ∧
      vm_interpret exactOps blank [0, 5, 8] = .undefined .read_past_bytecode) :=
  ⟨(run_bounded_inside_buffer exactOps blank [0, 5, 8, 9]).2.2.1 .SUCCESS _ rfl,
   (run_bounded_inside_buffer exactOps blank [0, 5, 8]).2.2.2.2.1 2
      { ip := some 3, stack := write (fun _ => 0) 0 (exactOps.ofByte 5), stack_top := 0,
        result := exactOps.ofByte 5 } rfl rfl⟩

/-- C12. Opcode-to-byte mapping: byte 0 is push-immediate and is followed by
one operand byte, 1 is add, 2 subtract, 3 divide, 4 multiply, 5 power, 6
square root, 7 natural logarithm, 8 pop-to-result and 9 halt; only
push-immediate takes an operand byte (after any other opcode the next byte is
decoded as an opcode). -/
theorem opcode_byte_mapping (ops : DoubleOps α) (prior : VM α) (a b : uint8_t) :
    ((vm_interpret ops prior [9]).status = some .SUCCESS ∧
      (vm_interpret ops prior [9]).result = some ops.zero) ∧
    ((vm_interpret ops prior [0, a, 8, 9]).status = some .SUCCESS ∧
      (vm_interpret ops prior [0, a, 8, 9]).result = some (ops.ofByte a)) ∧
    ((vm_interpret ops prior [0, a, 0, b, 1, 8, 9]).status = some .SUCCESS ∧
      (vm_interpret ops prior [0, a, 0, b, 1, 8, 9]).result
        = some (ops.add (ops.ofByte a) (ops.ofByte b))) ∧
    ((vm_interpret ops prior [0, a, 0, b, 2, 8, 9]).status = some .SUCCESS ∧
      (vm_interpret ops prior [0, a, 0, b, 2, 8, 9]).result
        = some (ops.sub (ops.ofByte a) (ops.ofByte b))) ∧
    (ops.ExactZero → b ≠ 0 →
      (vm_interpret ops prior [0, a, 0, b, 3, 8, 9]).status = some .SUCCESS ∧
      (vm_interpret ops prior [0, a, 0, b, 3, 8, 9]).result
        = some (ops.div (ops.ofByte a) (ops.ofByte b))) ∧
    ((vm_interpret ops prior [0, a, 0, b, 4, 8, 9]).status = some .SUCCESS ∧
      (vm_interpret ops prior [0, a, 0, b, 4, 8, 9]).result
        = some (ops.mul (ops.ofByte a) (ops.ofByte b))) ∧
    ((vm_interpret ops prior [0, a, 0, b, 5, 8, 9]).status = some .SUCCESS ∧
      (vm_interpret ops prior [0, a, 0, b, 5, 8, 9]).result
        = some (ops.pow (ops.ofByte a) (ops.ofByte b))) ∧
    ((vm_interpret ops prior [0, a, 6, 8, 9]).status = some .SUCCESS ∧
      (vm_interpret ops prior [0, a, 6, 8, 9]).result = some (ops.sqrt (ops.ofByte a))) ∧
    ((vm_interpret ops prior [0, a, 7, 8, 9]).status = some .SUCCESS ∧
      (vm_interpret ops prior [0, a, 7, 8, 9]).result = some (ops.log (ops.ofByte a))) ∧
    (∀ (bytecode : List uint8_t) (vm vm' : VM α) (i : Nat), vm.ip = some i →
      step ops bytecode vm = .ok (.next vm') →
      ∃ opcode, bytecode[i]? = some opcode ∧
        vm'.ip = some (if opcode.val = 0 then i + 2 else i + 1)) := by
  refine ⟨⟨rfl, rfl⟩, ⟨rfl, rfl⟩, ⟨rfl, rfl⟩, ⟨rfl, rfl⟩, ?_, ⟨rfl, rfl⟩, ⟨rfl, rfl⟩,
    ⟨rfl, rfl⟩, ⟨rfl, rfl⟩, ?_⟩
  · intro hz hb
    have hzb : ops.eqZero (ops.ofByte b) = false := by rw [hz b]; simpa using hb
    constructor <;>
      simp [vm_interpret, vm_interpret_loop, step, fetch, vm_stack_pop, vm_stack_push,
        vm_reset, Outcome.result, Outcome.status, bind, Except.bind, pure, Except.pure, write,
        STACK_MAX, hzb]
  · intro bytecode vm vm' i hip hst
    obtain ⟨opcode, hb, _, hip', _⟩ := step_next_inv ops bytecode hip hst
    exact ⟨opcode, hb, hip'⟩

/-- C12, witness: byte 3 divides, `10 / 5 = 2`, and byte 4 multiplies,
`10 * 2 = 20` (the test "Multiplication"), in exact arithmetic. -/
theorem opcode_byte_mapping_witness :
    (vm_interpret exactOps blank [0, 10, 0, 5, 3, 8, 9]).result = some 2 ∧
    (vm_interpret exactOps blank [0, 10, 0, 2, 4, 8, 9]).result = some 20 := by
  have h3 := (opcode_byte_mapping exactOps blank 10 5).2.2.2.2.1 exactOps_exactZero
    (by decide)
  have h4 := (opcode_byte_mapping exactOps blank 10 2).2.2.2.2.2.1
  have e3 : exactOps.div (exactOps.ofByte 10) (exactOps.ofByte 5) = 2 := by
    simp [exactOps, Fin.coe_ofNat_eq_mod]; norm_num
  have e4 : exactOps.mul (exactOps.ofByte 10) (exactOps.ofByte 2) = 20 := by
    simp [exactOps, Fin.coe_ofNat_eq_mod]; norm_num
  rw [e3] at h3
  rw [e4] at h4
  exact ⟨h3.2, h4.2⟩

/-- C13. Power: `[0,a, 0,b, 5, 8, 9]` returns `SUCCESS` with result
`pow(a, b)`: the value pushed first is the base, the value pushed second the
exponent. -/
theorem power_base_then_exponent (ops : DoubleOps α) (prior : VM α) (a b : uint8_t) :
    (vm_interpret ops prior [0, a, 0, b, 5, 8, 9]).status = some .SUCCESS ∧
    (vm_interpret ops prior [0, a, 0, b, 5, 8, 9]).result
      = some (ops.pow (ops.ofByte a) (ops.ofByte b)) :=
  ⟨rfl, rfl⟩

/-- C13, witness: the test "POW", `[0,2, 0,5, 5, 8, 9]`, gives `2 ^ 5 = 32`
(not `5 ^ 2 = 25`) in exact arithmetic. -/
theorem power_base_then_exponent_witness :
    (vm_interpret exactOps blank [0, 2, 0, 5, 5, 8, 9]).status = some .SUCCESS ∧
    (vm_interpret exactOps blank [0, 2, 0, 5, 5, 8, 9]).result = some 32 ∧
    (32 : ℚ) ≠ 5 ^ 2 := by
  have h := power_base_then_exponent exactOps blank 2 5
  have e : exactOps.pow (exactOps.ofByte 2) (exactOps.ofByte 5) = 32 := by
    simp [exactOps, Fin.coe_ofNat_eq_mod]; norm_num
  rw [e] at h
  exact ⟨h.1, h.2, by norm_num⟩

/-- C14. Unary operations act on the top of the stack only:
`[0,y, 0,x, 6, 8, 9]` returns `SUCCESS` with result `sqrt(x)` whatever `y`,
which is still on the stack, alone, at halt; the result is exactly `k` when
`x = k * k` with `k` in `0..15` and the square root is exact on these squares;
and `[0,x, 7, 8, 9]` returns `SUCCESS` with result `log(x)`. -/
theorem unary_ops_act_on_top (ops : DoubleOps α) (prior : VM α) (y x : uint8_t) :
    (∃ vm', vm_interpret ops prior [0, y, 0, x, 6, 8, 9] = .returned .SUCCESS vm' ∧
      vm'.result = ops.sqrt (ops.ofByte x) ∧ live vm' = [ops.ofByte y]) ∧
    (ops.ExactSqrt → ∀ k : uint8_t, k.val ≤ 15 →
      (vm_interpret ops prior [0, y, 0, k * k, 6, 8, 9]).status = some .SUCCESS ∧
      (vm_interpret ops prior [0, y, 0, k * k, 6, 8, 9]).result = some (ops.ofByte k)) ∧
    ((vm_interpret ops prior [0, x, 7, 8, 9]).status = some .SUCCESS ∧
      (vm_interpret ops prior [0, x, 7, 8, 9]).result = some (ops.log (ops.ofByte x))) := by
  refine ⟨⟨_, rfl, rfl, ?_⟩, ?_, ⟨rfl, rfl⟩⟩
  · simp [live, cells, write]
  · intro hs k hk
    refine ⟨rfl, ?_⟩
    show some (ops.sqrt (ops.ofByte (k * k))) = some (ops.ofByte k)
    rw [hs k hk]

/-- C14, witness: the test "SQRT", `[0,4, 0,81, 6, 8, 9]`, gives 9 in exact
arithmetic, with `81 = 9 * 9`. -/
theorem unary_ops_act_on_top_witness :
    (9 : uint8_t) * 9 = 81 ∧
    (vm_interpret exactOps blank [0, 4, 0, 81, 6, 8, 9]).status = some .SUCCESS ∧
    (vm_interpret exactOps blank [0, 4, 0, 81, 6, 8, 9]).result = some 9 := by
  have h := (unary_ops_act_on_top exactOps blank 4 81).2.1 exactOps_exactSqrt 9 (by decide)
  have e : (9 : uint8_t) * 9 = 81 := by decide
  have e9 : exactOps.ofByte 9 = 9 := by simp [exactOps, Fin.coe_ofNat_eq_mod]
  rw [e, e9] at h
  exact ⟨e, h⟩

/-- C15, counterexample: the stack does not stay within its capacity on every
buffer.  On 257 push-immediates the run reaches a state with 256 values on the
stack and then executes a further push-immediate, storing a 257th value past
the last cell; on `[8]` the run executes a pop with 0 values on the stack,
moving `stack_top` below the first cell. -/
theorem stack_size_invariant_counterexample :
    (∃ vm, iterations exactOps (pushes (List.replicate 256 1) ++ [0, 1]) 256
        (entry exactOps blank) = some vm ∧ vm.stack_top = 256 ∧
      step exactOps (pushes (List.replicate 256 1) ++ [0, 1]) vm
        = .error .write_past_stack) ∧
    ((entry exactOps blank).stack_top = 0 ∧
      step exactOps [8] (entry exactOps blank) = .error .pop_below_stack) := by
  obtain ⟨vm, hit, _, htop, _, _, hst⟩ :=
    push_on_full_stack exactOps blank (List.replicate 256 1) [] 1 (List.length_replicate _ _)
  exact ⟨⟨vm, hit, htop, hst⟩, rfl, rfl⟩

/-- C15, as amended.  In every state reached while the run stays within the
behaviour defined by C, the operand stack holds at least 0 and at most
`STACK_MAX` values.  The code does not enforce this: a push-immediate executed
on a full stack stores past the last cell, and a popping instruction (opcodes
1 to 8) executed on an empty stack moves `stack_top` below the first cell;
either way the run leaves defined behaviour, and with it the bounds of the
stack. -/
theorem stack_size_within_capacity_while_defined (ops : DoubleOps α) (prior : VM α)
    (bytecode : List uint8_t) :
    (∀ k vm, iterations ops bytecode k (entry ops prior) = some vm →
      0 ≤ vm.stack_top ∧ vm.stack_top ≤ STACK_MAX ∧ (live vm).length = vm.stack_top) ∧
    (∀ k vm i b x, iterations ops bytecode k (entry ops prior) = some vm → vm.ip = some i →
      bytecode[i]? = some b → b.val = 0 → bytecode[i + 1]? = some x →
      vm.stack_top = STACK_MAX →
      vm_interpret ops prior bytecode = .undefined .write_past_stack) ∧
    (∀ k vm i b, iterations ops bytecode k (entry ops prior) = some vm → vm.ip = some i →
      bytecode[i]? = some b → 1 ≤ b.val → b.val ≤ 8 → vm.stack_top = 0 →
      vm_interpret ops prior bytecode = .undefined .pop_below_stack) := by
  refine ⟨?_, ?_, ?_⟩
  · intro k vm hit
    exact ⟨Nat.zero_le _, reached_stack_top ops bytecode hit, cells_length _ _⟩
  · intro k vm i b x hit hip hb hop hx htop
    exact (vm_interpret_undefined_iff ops bytecode prior _).2
      ⟨k, vm, hit, step_pushi_full ops bytecode hip hb hop hx (Nat.le_of_eq htop.symm)⟩
  · intro k vm i b hit hip hb h1 h8 htop
    exact (vm_interpret_undefined_iff ops bytecode prior _).2
      ⟨k, vm, hit, step_pop_empty ops bytecode hip hb ⟨h1, h8⟩ htop⟩

/-- C15, witness: after the two pushes of `[0,2, 0,3, 1, 8, 9]` the stack
holds 2 values; and the add of `[1, 9]` finds the stack empty. -/
theorem stack_size_within_capacity_while_defined_witness :
    ((0 : Nat) ≤ 2 ∧ 2 ≤ STACK_MAX ∧
      (live ({ ip := some 4,
               stack := write (write (fun _ => 0) 0 (exactOps.ofByte 2)) 1 (exactOps.ofByte 3),
               stack_top := 2, result := 0 } : VM ℚ)).length = 2) ∧
    vm_interpret exactOps blank [1, 9] = .undefined .pop_below_stack :=
  ⟨(stack_size_within_capacity_while_defined exactOps blank [0, 2, 0, 3, 1, 8, 9]).1 2
      { ip := some 4,
        stack := write (write (fun _ => 0) 0 (exactOps.ofByte 2)) 1 (exactOps.ofByte 3),
        stack_top := 2, result := 0 } rfl,
   (stack_size_within_capacity_while_defined exactOps blank [1, 9]).2.2 0
      (entry exactOps blank) 0 1 rfl rfl rfl (by decide) (by decide) rfl⟩

/-- C16. Decode advance.  Whatever the stack, the opcode fetch moves `ip` by
one byte, and halt and an unknown byte return with `ip` exactly 1 further.
Every instruction that finds its operands is executed and moves `ip` by
exactly 2 when its opcode is push-immediate (0) and by exactly 1 for any other
opcode, whatever the values on the stack; conversely an iteration that
completes or returns has moved `ip` by exactly that much.  So the position of
the `k`-th opcode fetched is `opcode_position bytecode k`, a function of the
buffer's bytes alone, and the operand byte of a push-immediate is never at an
opcode position. -/
theorem decode_advance (ops : DoubleOps α) (prior : VM α) (bytecode : List uint8_t) :
    (∀ (vm : VM α) (i : Nat) (b : uint8_t), vm.ip = some i → bytecode[i]? = some b →
      fetch bytecode vm = .ok (b, { vm with ip := some (i + 1) })) ∧
    (∀ (vm : VM α) (i : Nat) (b : uint8_t), vm.ip = some i → bytecode[i]? = some b →
      b.val = 9 → step ops bytecode vm = .ok (.ret .SUCCESS { vm with ip := some (i + 1) })) ∧
    (∀ (vm : VM α) (i : Nat) (b : uint8_t), vm.ip = some i → bytecode[i]? = some b →
      10 ≤ b.val →
      step ops bytecode vm = .ok (.ret .ERROR_UNKNOWN_OPCODE { vm with ip := some (i + 1) })) ∧
    (∀ (vm : VM α) (i : Nat) (b x : uint8_t), vm.ip = some i → bytecode[i]? = some b →
      b.val = 0 → bytecode[i + 1]? = some x → vm.stack_top < STACK_MAX →
      ∃ vm', step ops bytecode vm = .ok (.next vm') ∧ vm'.ip = some (i + 2)) ∧
    (∀ (vm : VM α) (i n : Nat) (b : uint8_t), vm.ip = some i → bytecode[i]? = some b →
      1 ≤ b.val → b.val ≤ 5 → vm.stack_top = n + 2 → n < STACK_MAX →
      ∃ vm', (step ops bytecode vm = .ok (.next vm') ∨
          step ops bytecode vm = .ok (.ret .ERROR_DIVISION_BY_ZERO vm')) ∧
        vm'.ip = some (i + 1)) ∧
    (∀ (vm : VM α) (i n : Nat) (b : uint8_t), vm.ip = some i → bytecode[i]? = some b →
      6 ≤ b.val → b.val ≤ 8 → vm.stack_top = n + 1 → n < STACK_MAX →
      ∃ vm', step ops bytecode vm = .ok (.next vm') ∧ vm'.ip = some (i + 1)) ∧
    (∀ (vm vm' : VM α) (i : Nat), vm.ip = some i →
      step ops bytecode vm = .ok (.next vm') →
      ∃ opcode, bytecode[i]? = some opcode ∧
        vm'.ip = some (if opcode.val = 0 then i + 2 else i + 1)) ∧
    (∀ (vm vm' : VM α) (i : Nat) (r : interpret_result), vm.ip = some i →
      step ops bytecode vm = .ok (.ret r vm') →
      ∃ opcode, bytecode[i]? = some opcode ∧ opcode.val ≠ 0 ∧ vm'.ip = some (i + 1)) ∧
    (∀ k vm, iterations ops bytecode k (entry ops prior) = some vm →
      vm.ip = some (opcode_position bytecode k)) ∧
    (∀ k, bytecode[opcode_position bytecode k]? = some 0 →
      ∀ j, opcode_position bytecode j ≠ opcode_position bytecode k + 1) := by
  refine ⟨?_, ?_, ?_, ?_, ?_, ?_, ?_, ?_, ?_, ?_⟩
  · intro vm i b hip hb
    exact fetch_some bytecode hip hb
  · intro vm i b hip hb hop
    exact step_done ops bytecode hip hb hop
  · intro vm i b hip hb hop
    exact step_unknown ops bytecode hip hb hop
  · intro vm i b x hip hb hop hx hroom
    exact ⟨_, step_pushi ops bytecode hip hb hop hx hroom, rfl⟩
  · intro vm i n b hip hb h1 h5 htop hn
    interval_cases hv : b.val
    · exact ⟨_, Or.inl (step_add ops bytecode hip hb hv htop hn), rfl⟩
    · exact ⟨_, Or.inl (step_sub ops bytecode hip hb hv htop hn), rfl⟩
    · cases hz : ops.eqZero (vm.stack (n + 1)) with
      | true =>
        exact ⟨_, Or.inr (step_div_zero ops bytecode hip hb hv htop hz), rfl⟩
      | false =>
        exact ⟨_, Or.inl (step_div ops bytecode hip hb hv htop hn hz), rfl⟩
    · exact ⟨_, Or.inl (step_mul ops bytecode hip hb hv htop hn), rfl⟩
    · exact ⟨_, Or.inl (step_pow ops bytecode hip hb hv htop hn), rfl⟩
  · intro vm i n b hip hb h6 h8 htop hn
    interval_cases hv : b.val
    · exact ⟨_, step_sqrt ops bytecode hip hb hv htop hn, rfl⟩
    · exact ⟨_, step_ln ops bytecode hip hb hv htop hn, rfl⟩
    · exact ⟨_, step_pop_res ops bytecode hip hb hv htop, rfl⟩
  · intro vm vm' i hip hst
    obtain ⟨opcode, hb, _, hip', _⟩ := step_next_inv ops bytecode hip hst
    exact ⟨opcode, hb, hip'⟩
  · intro vm vm' i r hip hst
    obtain ⟨opcode, hb, hip', _, _, hcase⟩ := step_ret_inv ops bytecode hip hst
    refine ⟨opcode, hb, ?_, hip'⟩
    rcases hcase with ⟨_, h, _⟩ | ⟨_, h, _⟩ | ⟨_, h, _⟩ <;> omega
  · intro k vm hit
    exact reached_opcode_position ops bytecode hit
  · intro k h0 j hj
    have hnext : opcode_position bytecode (k + 1) = opcode_position bytecode k + 2 := by
      simp [opcode_position, next_opcode_position, h0]
    rcases Nat.lt_or_ge k j with hlt | hge
    · rcases Nat.lt_or_ge (k + 1) j with hlt' | hge'
      · have := opcode_position_strictMono bytecode hlt'
        omega
      · have : j = k + 1 := by omega
        rw [this] at hj
        omega
    · rcases Nat.lt_or_ge j k with hlt | hge'
      · have := opcode_position_strictMono bytecode hlt
        omega
      · have : j = k := by omega
        rw [this] at hj
        omega

/-- C16, witness: in `[0, 9, 8, 9]` the push-immediate moves `ip` from 0 to 2,
over its operand byte 9, which is not decoded as halt; the pop-to-result moves
it from 2 to 3; the opcodes are at positions 0, 2 and 3. -/
theorem decode_advance_witness :
    (∃ vm', step exactOps [0, 9, 8, 9] (entry exactOps blank) = .ok (.next vm') ∧
      vm'.ip = some 2) ∧
    (∃ vm', step exactOps [0, 9, 8, 9]
        { ip := some 2, stack := write (fun _ => 0) 0 (exactOps.ofByte 9), stack_top := 1,
          result := 0 } = .ok (.next vm') ∧ vm'.ip = some 3) ∧
    ({ ip := some 3, stack := write (fun _ => 0) 0 (exactOps.ofByte 9), stack_top := 0,
       result := exactOps.ofByte 9 } : VM ℚ).ip = some (opcode_position [0, 9, 8, 9] 2) ∧
    ∀ j, opcode_position [0, 9, 8, 9] j ≠ opcode_position [0, 9, 8, 9] 0 + 1 :=
  ⟨(decode_advance exactOps blank [0, 9, 8, 9]).2.2.2.1 (entry exactOps blank) 0 0 9
      rfl rfl rfl rfl (by decide),
   (decode_advance exactOps blank [0, 9, 8, 9]).2.2.2.2.2.1
      { ip := some 2, stack := write (fun _ => 0) 0 (exactOps.ofByte 9), stack_top := 1,
        result := 0 } 2 0 8 rfl rfl (by decide) (by decide) rfl (by decide),
   (decode_advance exactOps blank [0, 9, 8, 9]).2.2.2.2.2.2.2.2.1 2
      { ip := some 3, stack := write (fun _ => 0) 0 (exactOps.ofByte 9), stack_top := 0,
        result := exactOps.ofByte 9 } rfl,
   (decode_advance exactOps blank [0, 9, 8, 9]).2.2.2.2.2.2.2.2.2 0 rfl⟩

/-- C17. Exits of the loop: `vm_interpret` returns `SUCCESS` exactly when the
run reaches a halt instruction (byte 9 at an opcode position); any other
return is `ERROR_UNKNOWN_OPCODE` or `ERROR_DIVISION_BY_ZERO`; and a call that
does not return has left defined behaviour by a fetch past the buffer (a
truncated program), a store past the stack (overflow) or a pop below it
(underflow).  There is no other exit. -/
theorem loop_exits (ops : DoubleOps α) (prior : VM α) (bytecode : List uint8_t) :
    ((vm_interpret ops prior bytecode).status = some .SUCCESS ↔
      ∃ k vm i b, iterations ops bytecode k (entry ops prior) = some vm ∧
        vm.ip = some i ∧ bytecode[i]? = some b ∧ b.val = 9) ∧
    (∀ r, (vm_interpret ops prior bytecode).status = some r → r ≠ .SUCCESS →
      r = .ERROR_UNKNOWN_OPCODE ∨ r = .ERROR_DIVISION_BY_ZERO) ∧
    ((vm_interpret ops prior bytecode).status = none →
      vm_interpret ops prior bytecode = .undefined .read_past_bytecode ∨
      vm_interpret ops prior bytecode = .undefined .write_past_stack ∨
      vm_interpret ops prior bytecode = .undefined .pop_below_stack) := by
  refine ⟨⟨?_, ?_⟩, ?_, ?_⟩
  · intro h
    obtain ⟨vm', hrun⟩ := (status_eq_some_iff _ _).1 h
    obtain ⟨k, vm, hit, hst⟩ := (vm_interpret_returned_iff ops bytecode prior vm' _).1 hrun
    obtain ⟨i, hip, _, _⟩ := reached_ip ops bytecode hit
    obtain ⟨b, hb, _, _, _, hcase⟩ := step_ret_inv ops bytecode hip hst
    rcases hcase with ⟨_, hop, _⟩ | ⟨hr, _⟩ | ⟨hr, _⟩
    · exact ⟨k, vm, i, b, hit, hip, hb, hop⟩
    · exact absurd hr (by decide)
    · exact absurd hr (by decide)
  · rintro ⟨k, vm, i, b, hit, hip, hb, hop⟩
    have hrun := (vm_interpret_returned_iff ops bytecode prior _ _).2
      ⟨k, vm, hit, step_done ops bytecode hip hb hop⟩
    rw [hrun]
    rfl
  · intro r hr hne
    cases r with
    | SUCCESS => exact absurd rfl hne
    | ERROR_DIVISION_BY_ZERO => exact Or.inr rfl
    | ERROR_UNKNOWN_OPCODE => exact Or.inl rfl
  · intro hnone
    cases hrun : vm_interpret ops prior bytecode with
    | returned r vm' => simp [hrun, Outcome.status] at hnone
    | out_of_fuel =>
      exact absurd hrun (vm_interpret_loop_fuel ops bytecode _ (entry_ip ops prior)
        (Nat.zero_le _) (by omega))
    | undefined u =>
      obtain ⟨k, vm, hit, hst⟩ := (vm_interpret_undefined_iff ops bytecode prior u).1 hrun
      obtain ⟨i, hip, _, _⟩ := reached_ip ops bytecode hit
      rcases step_error_inv ops bytecode hip hst with ⟨hu, _⟩ | ⟨hu, _⟩ | ⟨hu, _⟩
      · exact Or.inl (by rw [hu])
      · exact Or.inr (Or.inl (by rw [hu]))
      · exact Or.inr (Or.inr (by rw [hu]))

/-- C17, witness: the test "Division with error" returns a failure, which is
`ERROR_DIVISION_BY_ZERO`; and the run of `[0, 5, 8]`, which has no halt, comes
to the end of the buffer without returning and reads past it. -/
theorem loop_exits_witness :
    (interpret_result.ERROR_DIVISION_BY_ZERO = .ERROR_UNKNOWN_OPCODE ∨
      interpret_result.ERROR_DIVISION_BY_ZERO = .ERROR_DIVISION_BY_ZERO) ∧
    (vm_interpret exactOps blank [0, 5, 8] = .undefined .read_past_bytecode ∨
      vm_interpret exactOps blank [0, 5, 8] = .undefined .write_past_stack ∨
      vm_interpret exactOps blank [0, 5, 8] = .undefined .pop_below_stack) :=
  ⟨(loop_exits exactOps blank [0, 10, 0, 0, 3, 8, 9]).2.1 .ERROR_DIVISION_BY_ZERO
      (by
        simp [vm_interpret, vm_interpret_loop, step, fetch, vm_stack_pop, vm_stack_push,
          vm_reset, Outcome.status, exactOps, bind, Except.bind, pure, Except.pure, write,
          STACK_MAX, Fin.coe_ofNat_eq_mod])
      (by decide),
   (loop_exits exactOps blank [0, 5, 8]).2.2 rfl⟩

/-- C18. Terminal states are final: when `vm_interpret` returns on a buffer
`p` (with `SUCCESS`, `ERROR_DIVISION_BY_ZERO` or `ERROR_UNKNOWN_OPCODE`), it
returns the same value and leaves the same machine state, result register and
stack included, on `p ++ s` for every `s`; its `ip` has not moved past the
end of `p`, so no byte of `s` is fetched. -/
theorem terminal_states_final (ops : DoubleOps α) (prior : VM α) (p s : List uint8_t)
    (r : interpret_result) (vm' : VM α)
    (h : vm_interpret ops prior p = .returned r vm') :
    vm_interpret ops prior (p ++ s) = .returned r vm' ∧
    ∃ i, vm'.ip = some i ∧ i ≤ p.length := by
  obtain ⟨k, vm, hit, hst⟩ := (vm_interpret_returned_iff ops p prior vm' r).1 h
  refine ⟨(vm_interpret_returned_iff ops (p ++ s) prior vm' r).2
    ⟨k, vm, iterations_append ops s hit, step_append ops s hst⟩, ?_⟩
  obtain ⟨i, hip, _, _⟩ := reached_ip ops p hit
  obtain ⟨b, hb, hip', _⟩ := step_ret_inv ops p hip hst
  have hlt : i < p.length := (List.getElem?_eq_some_iff.1 hb).1
  exact ⟨i + 1, hip', hlt⟩

/-- C18, witness: `[0,5, 8, 9]` followed by the bytes `[3, 77]`, which would
fail if they were executed. -/
theorem terminal_states_final_witness :
    vm_interpret exactOps blank ([0, 5, 8, 9] ++ [3, 77]) =
      .returned .SUCCESS
        { ip := some 4, stack := write (fun _ => 0) 0 (exactOps.ofByte 5), stack_top := 0,
          result := exactOps.ofByte 5 } :=
  (terminal_states_final exactOps blank [0, 5, 8, 9] [3, 77] .SUCCESS _ rfl).1

/-- C19, counterexample: a push-immediate whose operand byte is present does
not grow the stack by one value when the stack is full.  After the 256
pushes of this program the stack holds 256 values, and the push-immediate of
7 that follows stores past the last cell instead. -/
theorem push_grows_stack_counterexample :
    ∃ vm, iterations exactOps (pushes (List.replicate 256 2) ++ [0, 7, 8, 9]) 256
        (entry exactOps blank) = some vm ∧
      (live vm).length = 256 ∧
      (pushes (List.replicate 256 2) ++ [0, 7, 8, 9])[512]? = some 0 ∧
      (pushes (List.replicate 256 2) ++ [0, 7, 8, 9])[513]? = some 7 ∧
      vm.ip = some 512 ∧
      step exactOps (pushes (List.replicate 256 2) ++ [0, 7, 8, 9]) vm
        = .error .write_past_stack := by
  obtain ⟨vm, hit, hip, htop, hb, hx, hst⟩ :=
    push_on_full_stack exactOps blank (List.replicate 256 2) [8, 9] 7
      (List.length_replicate _ _)
  exact ⟨vm, hit, by rw [live, cells_length, htop]; rfl, hb, hx, hip, hst⟩

/-- C19, as amended.  Per-instruction stack effect and frame, on the live
stack (topmost value first).  Push-immediate, when its operand byte is present
and the stack is not full, grows the stack by exactly one value; each binary
op, when two values are present (and for divide the top one is not zero),
replaces exactly the top two values by one; each unary op replaces exactly the
top value by one; pop-to-result removes exactly the top value and writes it to
the result register; halt changes neither stack nor result register.  In
every case the values beneath the consumed operands are unchanged, and no
instruction other than pop-to-result changes the result register. -/
theorem per_instruction_stack_effect (ops : DoubleOps α) (bytecode : List uint8_t)
    (vm : VM α) (i : Nat) (b : uint8_t)
    (hip : vm.ip = some i) (hb : bytecode[i]? = some b) (htop : vm.stack_top ≤ STACK_MAX) :
    (b.val = 0 → ∀ x, bytecode[i + 1]? = some x → vm.stack_top < STACK_MAX →
      ∃ vm', step ops bytecode vm = .ok (.next vm') ∧
        live vm' = ops.ofByte x :: live vm ∧ vm'.result = vm.result) ∧
    (∀ right left s, live vm = right :: left :: s →
      (b.val = 1 → ∃ vm', step ops bytecode vm = .ok (.next vm') ∧
        live vm' = ops.add left right :: s ∧ vm'.result = vm.result) ∧
      (b.val = 2 → ∃ vm', step ops bytecode vm = .ok (.next vm') ∧
        live vm' = ops.sub left right :: s ∧ vm'.result = vm.result) ∧
      (b.val = 3 → ops.eqZero right = false →
        ∃ vm', step ops bytecode vm = .ok (.next vm') ∧
        live vm' = ops.div left right :: s ∧ vm'.result = vm.result) ∧
      (b.val = 4 → ∃ vm', step ops bytecode vm = .ok (.next vm') ∧
        live vm' = ops.mul left right :: s ∧ vm'.result = vm.result) ∧
      (b.val = 5 → ∃ vm', step ops bytecode vm = .ok (.next vm') ∧
        live vm' = ops.pow left right :: s ∧ vm'.result = vm.result)) ∧
    (∀ arg s, live vm = arg :: s →
      (b.val = 6 → ∃ vm', step ops bytecode vm = .ok (.next vm') ∧
        live vm' = ops.sqrt arg :: s ∧ vm'.result = vm.result) ∧
      (b.val = 7 → ∃ vm', step ops bytecode vm = .ok (.next vm') ∧
        live vm' = ops.log arg :: s ∧ vm'.result = vm.result) ∧
      (b.val = 8 → ∃ vm', step ops bytecode vm = .ok (.next vm') ∧
        live vm' = s ∧ vm'.result = arg)) ∧
    (b.val = 9 → ∃ vm', step ops bytecode vm = .ok (.ret .SUCCESS vm') ∧
      live vm' = live vm ∧ vm'.result = vm.result) ∧
    (∀ vm', step ops bytecode vm = .ok (.next vm') → b.val ≠ 8 → vm'.result = vm.result) := by
  have hlen : (live vm).length ≤ STACK_MAX := by rw [live, cells_length]; exact htop
  have key : ∀ stack' last', reference_op ops b.val (live vm) (some vm.result)
      = some (stack', last') →
      ∃ vm', step ops bytecode vm = .ok (.next vm') ∧ live vm' = stack' ∧
        vm'.result = last'.getD ops.zero := by
    intro stack' last' href
    obtain ⟨vm', hst, _, hlive, _, hres⟩ :=
      @step_refines_reference_op α ops bytecode vm i b (live vm) stack' (some vm.result) last'
        hip hb rfl hlen rfl href
    exact ⟨vm', hst, hlive, hres⟩
  refine ⟨?_, ?_, ?_, ?_, ?_⟩
  · intro hop x hx hroom
    exact ⟨_, step_pushi ops bytecode hip hb hop hx hroom,
      by simp only [live, cells_write_top], rfl⟩
  · intro right left s hlive
    refine ⟨?_, ?_, ?_, ?_, ?_⟩
    · intro hop
      exact key _ (some vm.result) (by rw [hop, hlive]; rfl)
    · intro hop
      exact key _ (some vm.result) (by rw [hop, hlive]; rfl)
    · intro hop hz
      exact key _ (some vm.result) (by rw [hop, hlive]; simp [reference_op, hz])
    · intro hop
      exact key _ (some vm.result) (by rw [hop, hlive]; rfl)
    · intro hop
      exact key _ (some vm.result) (by rw [hop, hlive]; rfl)
  · intro arg s hlive
    refine ⟨?_, ?_, ?_⟩
    · intro hop
      exact key _ (some vm.result) (by rw [hop, hlive]; rfl)
    · intro hop
      exact key _ (some vm.result) (by rw [hop, hlive]; rfl)
    · intro hop
      exact key _ (some arg) (by rw [hop, hlive]; rfl)
  · intro hop
    exact ⟨_, step_done ops bytecode hip hb hop, rfl, rfl⟩
  · intro vm' hst h8
    obtain ⟨b', hb', _, _, hres, _⟩ := step_next_inv ops bytecode hip hst
    rw [hb] at hb'
    simp only [Option.some.injEq] at hb'
    subst hb'
    exact hres h8

/-- C19, witness: on the stack `3, 11, 2` (topmost first) the add of
`[0,2, 0,11, 0,3, 1, 4, 8, 9]` leaves `11 + 3, 2`: the value 2 beneath the
operands is unchanged, and so is the result register. -/
theorem per_instruction_stack_effect_witness :
    ∃ vm', step exactOps [0, 2, 0, 11, 0, 3, 1, 4, 8, 9]
        { ip := some 6, stack := fun j => if j = 0 then 2 else if j = 1 then 11 else 3,
          stack_top := 3, result := 0 } = .ok (.next vm') ∧
      live vm' = [exactOps.add 11 3, 2] ∧ vm'.result = 0 :=
  ((per_instruction_stack_effect exactOps [0, 2, 0, 11, 0, 3, 1, 4, 8, 9]
      { ip := some 6, stack := fun j => if j = 0 then 2 else if j = 1 then 11 else 3,
        stack_top := 3, result := 0 } 6 1 rfl rfl (by decide)).2.1 3 11 [2]
      (by simp [live, cells])).1 rfl

/-- C20. The zero-divisor check happens before the left operand is popped: a
divide executed with a zero on top of the stack returns
`ERROR_DIVISION_BY_ZERO` having removed that one value only, whether or not
there is a value beneath it.  So `[0,0, 3] ++ t` returns
`ERROR_DIVISION_BY_ZERO` with an empty stack, without popping below the
bottom of the stack, and on `[0,a, 0,0, 3] ++ t` the value `a` is still on
the stack when the call returns. -/
theorem zero_divisor_checked_before_left_pop (ops : DoubleOps α) (prior : VM α)
    (hz : ops.ExactZero) :
    (∀ (bytecode : List uint8_t) (k : Nat) (vm : VM α) (i n : Nat) (b : uint8_t),
      iterations ops bytecode k (entry ops prior) = some vm → vm.ip = some i →
      bytecode[i]? = some b → b.val = 3 → vm.stack_top = n + 1 →
      ops.eqZero (vm.stack n) = true →
      vm_interpret ops prior bytecode = .returned .ERROR_DIVISION_BY_ZERO
        { vm with ip := some (i + 1), stack_top := n }) ∧
    (∀ t : List uint8_t, vm_interpret ops prior ([0, 0, 3] ++ t) =
      .returned .ERROR_DIVISION_BY_ZERO
        { ip := some 3, stack := write (fun _ => ops.zero) 0 (ops.ofByte 0), stack_top := 0,
          result := ops.zero }) ∧
    (∀ (a : uint8_t) (t : List uint8_t),
      ∃ vm', vm_interpret ops prior ([0, a, 0, 0, 3] ++ t)
          = .returned .ERROR_DIVISION_BY_ZERO vm' ∧ live vm' = [ops.ofByte a]) := by
  have h0 : ops.eqZero (ops.ofByte 0) = true := by rw [hz 0]; rfl
  have general : ∀ (bytecode : List uint8_t) (k : Nat) (vm : VM α) (i n : Nat) (b : uint8_t),
      iterations ops bytecode k (entry ops prior) = some vm → vm.ip = some i →
      bytecode[i]? = some b → b.val = 3 → vm.stack_top = n + 1 →
      ops.eqZero (vm.stack n) = true →
      vm_interpret ops prior bytecode = .returned .ERROR_DIVISION_BY_ZERO
        { vm with ip := some (i + 1), stack_top := n } := by
    intro bytecode k vm i n b hit hip hb hop htop hzero
    exact (vm_interpret_returned_iff ops bytecode prior _ _).2
      ⟨k, vm, hit, step_div_zero ops bytecode hip hb hop htop hzero⟩
  refine ⟨general, ?_, ?_⟩
  · intro t
    have hit : iterations ops ([0, 0, 3] ++ t) 1 (entry ops prior) =
        some { ip := some 2, stack := write (fun _ => ops.zero) 0 (ops.ofByte 0),
               stack_top := 1, result := ops.zero } := by
      simp [iterations, step, fetch, entry, vm_reset, vm_stack_push, bind, Except.bind, pure,
        Except.pure, STACK_MAX]
    exact general _ 1 _ 2 0 3 hit rfl (by simp) rfl rfl (by simpa [write] using h0)
  · intro a t
    have hit : iterations ops ([0, a, 0, 0, 3] ++ t) 2 (entry ops prior) =
        some { ip := some 4,
               stack := write (write (fun _ => ops.zero) 0 (ops.ofByte a)) 1 (ops.ofByte 0),
               stack_top := 2, result := ops.zero } := by
      simp [iterations, step, fetch, entry, vm_reset, vm_stack_push, bind, Except.bind, pure,
        Except.pure, STACK_MAX]
    refine ⟨_, general _ 2 _ 4 1 3 hit rfl (by simp) rfl rfl (by simpa [write] using h0), ?_⟩
    simp [live, cells, write]

/-- C20, witness: `[0,0, 3, 8, 9]`, a divide with a single operand, which is
zero, in exact arithmetic. -/
theorem zero_divisor_checked_before_left_pop_witness :
    vm_interpret exactOps blank ([0, 0, 3] ++ [8, 9]) =
      .returned .ERROR_DIVISION_BY_ZERO
        { ip := some 3, stack := write (fun _ => 0) 0 (exactOps.ofByte 0), stack_top := 0,
          result := 0 } :=
  (zero_divisor_checked_before_left_pop exactOps blank exactOps_exactZero).2.1 [8, 9]

end MoreClaims

end StackVM
